import Mathlib

/-!
Verification of the HKT (Hierarchical Knowledge Tree) construction algorithm
from `src/risklive/HKT/hkt_algorithm.py`, shallowly embedded in Lean 4.

Embedding conventions:
* Python `dict` / `OrderedDict` (insertion-ordered maps) are embedded as
  association lists `List (κ × α)` in insertion order.  Assignment to a key
  replaces the value in place when the key is present and appends otherwise,
  exactly like a Python dict.
* The word-rank table `OrderedDict[int, SourceWord]` is embedded as an ordered
  `List SourceWord`: its integer keys are used by the Python code only as
  handles for deletion inside `remove_word_from_source_word_ds`, which deletes
  every entry of a given `word_id`; that operation is a `filter` on the ordered
  list, so the keys themselves are unobservable and elided.
* Python `set` is embedded as `Finset`.  The only place where Python set
  *iteration order* is observable is the deduplication `set(src.words)` in
  `build` (it determines the insertion order of the word counter and hence the
  assignment of word ids) and the iteration over `node.word_ids` in
  `add_node_top_words`.  `set(src.words)` is modelled as first-occurrence
  deduplication and `for wid in node.word_ids` as ascending iteration; the
  concrete inputs evaluated below were checked to be insensitive to this choice.
* Python floats are embedded as rationals `ℚ`; all ratios occurring in the
  algorithm are exact small fractions.
* `deepcopy` on tables of immutable records is the identity on the embedded
  pure values.
* The mutable fields `self.nodeDS` / `self.HKTDS` / `self.wordDS` are threaded
  as an explicit `AlgState`.  In Python, the `Node` objects stored in
  `hkt.nodes` are the very objects stored in `nodeDS`; the embedding keeps the
  single store `nodeDS` and lets an `HKT` hold the list of its `node_id`s, so
  every read or mutation of a node goes through `nodeDS`, mirroring the
  aliasing.
* The recursion of `create_branches` is not structural; it is embedded with an
  explicit fuel argument bounding the recursion depth.  Each recursive call
  works on a table that lost at least the entries of one word of a non-empty
  node, so the depth is bounded by the table length, and `build` passes
  `length + 1` as fuel.
-/

namespace RiskLive

/-- `Source` from `data_helper.py`: one data source with its token list. -/
structure Src where
  source_id : Nat
  text : String
  category_id : Int
  words : List String
  deriving DecidableEq, Repr

/-- `SourceWord` dataclass: a word appearing in a particular source. -/
structure SourceWord where
  source_word_id : Nat
  source_id : Nat
  word_id : Int
  word : String
  word_no_of_sources : Nat
  deriving DecidableEq, Repr

/-- `Node` dataclass: a node inside an HKT. -/
structure Node where
  node_id : Nat
  hkt_id : Nat
  word_ids : Finset Int
  source_ids : Finset Nat
  top_words : List Int
  deriving DecidableEq

/-- `HKT` dataclass.  The Python field `nodes` holds the `Node` objects that
are also registered in `nodeDS`; the embedding stores their ids. -/
structure HKT where
  hkt_id : Nat
  node_ids : List Nat
  expected_words : List Int
  parent_node_id : Nat
  deriving DecidableEq

/-- The four constructor parameters of `HKTAlgorithm`. -/
structure HKTParams where
  minimum_threshold_against_max_word_count : ℚ
  similarity_threshold : ℚ
  minimum_sources_important : Int
  minimum_sources_branch : Int
  deriving DecidableEq, Repr

/-- The stats dictionary returned by `build`. -/
structure Stats where
  number_loaded : Nat
  number_accepted_sources : Nat
  number_of_words : Nat
  update_source_word_relation_db : Nat
  number_of_hkts : Nat
  number_of_nodes : Nat
  deriving DecidableEq, Repr

/-- The mutable datasets of `HKTAlgorithm` (`sourceDS` is just the input and
is not read back by the algorithm, so it is not threaded). -/
structure AlgState where
  nodeDS : List (Nat × Node)
  hktDS : List (Nat × HKT)
  wordDS : List (Int × String)
  deriving DecidableEq

/-! ### Association-list primitives (Python `dict` semantics) -/

/-- Lookup in an insertion-ordered association list. -/
def alistFind? {κ α : Type} [DecidableEq κ] : List (κ × α) → κ → Option α
  | [], _ => none
  | (k, v) :: rest, key => if k = key then some v else alistFind? rest key

/-- Python `d[k] = v`: replace in place when present, append otherwise. -/
def alistInsert {κ α : Type} [DecidableEq κ] (key : κ) (v : α) (l : List (κ × α)) :
    List (κ × α) :=
  if (alistFind? l key).isSome then
    l.map (fun pr => if pr.1 = key then (key, v) else pr)
  else l ++ [(key, v)]

/-- Mutation of the value stored at a key (Python mutates the object in
place, e.g. `self.nodeDS[nid].word_ids.add(w)`). -/
def alistUpdate {κ α : Type} [DecidableEq κ] (key : κ) (f : α → α) (l : List (κ × α)) :
    List (κ × α) :=
  l.map (fun pr => if pr.1 = key then (pr.1, f pr.2) else pr)

/-- The `Node` stored under `nid` in `nodeDS` (default dummy if absent; the
algorithm only ever looks up registered ids). -/
def nodeOf (st : AlgState) (nid : Nat) : Node :=
  (alistFind? st.nodeDS nid).getD ⟨0, 0, ∅, ∅, []⟩

/-- `self.nodeDS[nid] = node`. -/
def registerNode (nid : Nat) (node : Node) (st : AlgState) : AlgState :=
  { st with nodeDS := alistInsert nid node st.nodeDS }

/-- In-place mutation of the node object stored under `nid`. -/
def updateNode (nid : Nat) (f : Node → Node) (st : AlgState) : AlgState :=
  { st with nodeDS := alistUpdate nid f st.nodeDS }

/-- `self.HKTDS[hkt.hkt_id] = hkt`. -/
def registerHkt (hkt : HKT) (st : AlgState) : AlgState :=
  { st with hktDS := alistInsert hkt.hkt_id hkt st.hktDS }

/-! ### Word-rank table operations -/

/-- Set of `source_id`s having at least one entry in a table. -/
def tableSources (tbl : List SourceWord) : Finset Nat :=
  (tbl.map (fun sw => sw.source_id)).toFinset

/-- `{sw.source_id : sw ∈ tbl, sw.word_id = w}`. -/
def wordSources (tbl : List SourceWord) (w : Int) : Finset Nat :=
  ((tbl.filter (fun sw => sw.word_id = w)).map (fun sw => sw.source_id)).toFinset

/-- `remove_word_from_source_word_ds`: delete every entry of `word_id = w`. -/
def remove_word_from_source_word_ds (w : Int) (tbl : List SourceWord) :
    List SourceWord :=
  tbl.filter (fun sw => ¬ (sw.word_id = w))

/-- The sort comparator `(-word_no_of_sources, word_id)` ascending, as the
non-strict lexicographic order used by the (stable) sorts in the code. -/
def tableKeyLE (a b : SourceWord) : Bool :=
  (b.word_no_of_sources < a.word_no_of_sources) ||
    (a.word_no_of_sources = b.word_no_of_sources && a.word_id ≤ b.word_id)

/-- Stable insertion used by `sortTable`. -/
def insertSorted {α : Type} (le : α → α → Bool) (x : α) : List α → List α
  | [] => [x]
  | y :: ys => if le x y then x :: y :: ys else y :: insertSorted le x ys

/-- Stable insertion sort modelling Python `sorted` (stability matters only
among equal keys, where the algorithm's behaviour is order-insensitive). -/
def sortStable {α : Type} (le : α → α → Bool) : List α → List α
  | [] => []
  | x :: xs => insertSorted le x (sortStable le xs)

/-- `sorted(..., key = (-word_no_of_sources, word_id))`. -/
def sortTable (tbl : List SourceWord) : List SourceWord :=
  sortStable tableKeyLE tbl

/-! ### `find_expected_words_general` -/

/-- The exact rational `a / b` for natural `a`, `b`.  The algorithm divides
only behind guards that ensure `b ≠ 0`, where `mkRat a b = (a : ℚ) / (b : ℚ)`
(see `natDiv_eq_div`); `mkRat` is used because it evaluates inside the kernel
while `Rat.div` is irreducible there. -/
def natDiv (a b : Nat) : ℚ :=
  mkRat (Int.ofNat a) b

/-- Loop body of `find_expected_words_general`: walk the entries, append
unseen ids while the ratio stays at or above the threshold, and break at the
first entry whose ratio falls below it (`maximum == 0` also breaks). -/
def expectedGo (θ : ℚ) (maximum : Nat) (seen : Finset Int) :
    List SourceWord → List Int
  | [] => []
  | sw :: rest =>
    if maximum = 0 then []
    else
      let ratio : ℚ := natDiv sw.word_no_of_sources maximum
      if θ ≤ ratio ∧ sw.word_id ∉ seen then
        sw.word_id :: expectedGo θ maximum (insert sw.word_id seen) rest
      else if ratio < θ then []
      else expectedGo θ maximum seen rest

/-- `find_expected_words_general`. -/
def find_expected_words_general (p : HKTParams) (tbl : List SourceWord) :
    List Int :=
  match tbl with
  | [] => []
  | first :: _ =>
    expectedGo p.minimum_threshold_against_max_word_count
      first.word_no_of_sources ∅ tbl

/-- Loop body of the *full scan* variant, modelled from the spec's words
(§9, C8): identical to `expectedGo` except that an entry whose ratio falls
below the threshold is skipped instead of stopping the scan. -/
def expectedFullGo (θ : ℚ) (maximum : Nat) (seen : Finset Int) :
    List SourceWord → List Int
  | [] => []
  | sw :: rest =>
    if maximum = 0 then []
    else
      let ratio : ℚ := natDiv sw.word_no_of_sources maximum
      if θ ≤ ratio ∧ sw.word_id ∉ seen then
        sw.word_id :: expectedFullGo θ maximum (insert sw.word_id seen) rest
      else expectedFullGo θ maximum seen rest

/-- The expected-words scan without the early exit (spec comparator for C8). -/
def find_expected_words_full_scan (p : HKTParams) (tbl : List SourceWord) :
    List Int :=
  match tbl with
  | [] => []
  | first :: _ =>
    expectedFullGo p.minimum_threshold_against_max_word_count
      first.word_no_of_sources ∅ tbl

/-! ### Node construction -/

/-- `create_node`: new node for `word_id`, collecting the sources of that
word still present in the table. -/
def create_node (new_node_id : Nat) (hkt_id : Nat) (tbl : List SourceWord)
    (word_id : Int) : Node :=
  { node_id := new_node_id
    hkt_id := hkt_id
    word_ids := {word_id}
    source_ids := wordSources tbl word_id
    top_words := [] }

/-- `create_node_for_refuge_sources`. -/
def create_node_for_refuge_sources (new_node_id : Nat) (hkt_id : Nat)
    (refuge_sources : Finset Nat) : Node :=
  { node_id := new_node_id
    hkt_id := hkt_id
    word_ids := {-1}
    source_ids := refuge_sources
    top_words := [] }

/-! ### The fold over expected words inside `create_hkt` -/

/-- The mutation applied to the best collided node: add the expected word to
its `word_ids` and union the word's sources into its `source_ids`
(lines 293 to 296 of the Python source; the two `nodeDS` lines there mutate
the same object). -/
def absorbWord (w : Int) (S : Finset Nat) (n : Node) : Node :=
  { n with word_ids := insert w n.word_ids, source_ids := n.source_ids ∪ S }

/-- One step of the collision search: walk the HKT's nodes in order; skip
nodes with empty `source_ids`; a node whose overlap score reaches the
similarity threshold replaces the best match when its score is strictly
higher (Python's `max(collided_nodes.items(), key=score)` returns the first
maximum in insertion order). -/
def collisionStep (θ : ℚ) (st : AlgState) (S : Finset Nat)
    (best : Option (Nat × ℚ)) (nid : Nat) : Option (Nat × ℚ) :=
  let ns := (nodeOf st nid).source_ids
  if ns = ∅ then best
  else
    let score : ℚ := natDiv (ns ∩ S).card ns.card
    if θ ≤ score then
      match best with
      | none => some (nid, score)
      | some pr => if pr.2 < score then some (nid, score) else best
    else best

def bestCollision (θ : ℚ) (st : AlgState) (ids : List Nat) (S : Finset Nat) :
    Option Nat :=
  (ids.foldl (collisionStep θ st S) none).map Prod.fst

/-- One iteration of the `for expected_word in list(expected_words)` loop in
`create_hkt`, folded over the remaining expected words.  Returns the final
state, the remaining working table and the HKT's node-id list. -/
def foldExpected (p : HKTParams) (hkt_id : Nat) :
    AlgState → List SourceWord → List Nat → List Int →
      AlgState × List SourceWord × List Nat
  | st, tbl, ids, [] => (st, tbl, ids)
  | st, tbl, ids, w :: ws =>
    let S := wordSources tbl w
    match bestCollision p.similarity_threshold st ids S with
    | some bid =>
      foldExpected p hkt_id (updateNode bid (absorbWord w S) st)
        (remove_word_from_source_word_ds w tbl) ids ws
    | none =>
      let nid := st.nodeDS.length + 1
      let node := create_node nid hkt_id tbl w
      foldExpected p hkt_id (registerNode nid node st)
        (remove_word_from_source_word_ds w tbl) (ids ++ [nid]) ws

/-- Union of the `source_ids` of the nodes with the given ids, read from the
current `nodeDS` (mirrors the union over `hkt.nodes`). -/
def unionOverIds (st : AlgState) (ids : List Nat) : Finset Nat :=
  ids.foldr (fun nid acc => (nodeOf st nid).source_ids ∪ acc) ∅

/-! ### `create_hkt` -/

/-- `create_hkt(working_table, parent_node_id)`.  Returns the new state, the
mutated working table, and the created HKT (`none` when no expected words).
The caller registers the HKT in `HKTDS`, exactly as in the Python code. -/
def create_hkt (p : HKTParams) (st : AlgState) (tbl : List SourceWord)
    (parent_node_id : Nat) : AlgState × List SourceWord × Option HKT :=
  match tbl with
  | [] => (st, tbl, none)
  | first :: _ =>
    let expected := find_expected_words_general p tbl
    if expected = [] then (st, tbl, none)
    else
      let hkt_id := st.hktDS.length + 1
      let w0 := first.word_id
      let nid0 := st.nodeDS.length + 1
      let seed := create_node nid0 hkt_id tbl w0
      let st1 := registerNode nid0 seed st
      let tbl1 := remove_word_from_source_word_ds w0 tbl
      let exp1 := expected.erase w0
      let r := foldExpected p hkt_id st1 tbl1 [nid0] exp1
      let st2 := r.1
      let tbl2 := r.2.1
      let ids := r.2.2
      let refugee := tableSources tbl2 \ unionOverIds st2 ids
      if refugee = ∅ then
        (st2, tbl2, some ⟨hkt_id, ids, exp1, parent_node_id⟩)
      else
        let rid := st2.nodeDS.length + 1
        let rnode := create_node_for_refuge_sources rid hkt_id refugee
        (registerNode rid rnode st2, tbl2,
          some ⟨hkt_id, ids ++ [rid], exp1, parent_node_id⟩)

/-! ### `add_node_top_words` and `update_word_no_of_sources` -/

/-- Second loop of `add_node_top_words`: append unseen table word ids in
table order, stopping once ten top words are reached. -/
def topWordsGo : List Int → List SourceWord → List Int
  | tw, [] => tw
  | tw, sw :: rest =>
    let tw' := if sw.word_id ∈ tw then tw else tw ++ [sw.word_id]
    if 10 ≤ tw'.length then tw' else topWordsGo tw' rest

/-- `add_node_top_words`: a no-op for refuge nodes (the guard
`if -1 not in node.word_ids` wraps the whole body); otherwise append the
node's own word ids (set iteration modelled ascending) and then table word
ids up to ten. -/
def add_node_top_words (node : Node) (main : List SourceWord) : Node :=
  if (-1 : Int) ∈ node.word_ids then node
  else
    let tw1 := node.top_words ++ node.word_ids.sort (· ≤ ·)
    { node with top_words := topWordsGo tw1 main }

/-- `update_word_no_of_sources`: recount each word's entries within the
local table and overwrite the field. -/
def update_word_no_of_sources (tbl : List SourceWord) : List SourceWord :=
  tbl.map (fun sw =>
    { sw with
      word_no_of_sources :=
        (tbl.filter (fun sw2 => sw2.word_id = sw.word_id)).length })

/-! ### `create_branches` -/

/-- The per-node body of `create_branches` for node `nid`, where `child`
performs the recursive `create_branches` call on the produced child HKT. -/
def branchNodeStep (p : HKTParams)
    (child : AlgState → List Nat → List SourceWord → AlgState)
    (st : AlgState) (nid : Nat) (main : List SourceWord) : AlgState :=
  let node := nodeOf st nid
  if p.minimum_sources_branch < (node.source_ids.card : Int) then
    let temp :=
      if (-1 : Int) ∈ node.word_ids then
        main.filter (fun sw => sw.source_id ∈ node.source_ids)
      else
        main.filter (fun sw =>
          sw.word_id ∉ node.word_ids ∧ sw.source_id ∈ node.source_ids)
    let mainLocal := sortTable (update_word_no_of_sources temp)
    if mainLocal = [] then st
    else
      let st1 := updateNode nid (fun n => add_node_top_words n mainLocal) st
      let r := create_hkt p st1 mainLocal nid
      match r.2.2 with
      | none => r.1
      | some h =>
        let st3 := registerHkt h r.1
        if r.2.1 = [] then st3 else child st3 h.node_ids mainLocal
  else st

/-- The `for node in hkt.nodes` loop of `create_branches`. -/
def branchesGo (p : HKTParams)
    (child : AlgState → List Nat → List SourceWord → AlgState) :
    AlgState → List Nat → List SourceWord → AlgState
  | st, [], _ => st
  | st, nid :: rest, main =>
    branchesGo p child (branchNodeStep p child st nid main) rest main

/-- `create_branches(hkt, main_word_ds)` with an explicit recursion-depth
fuel; `build` passes a fuel exceeding the provable depth bound. -/
def create_branches (p : HKTParams) :
    Nat → AlgState → List Nat → List SourceWord → AlgState
  | 0, st, _, _ => st
  | fuel + 1, st, ids, main =>
    branchesGo p (create_branches p fuel) st ids main

/-! ### Vocabulary indexing (step 1 and step 2 of `build`) -/

/-- First-occurrence deduplication, modelling the iteration over
`set(src.words)` (see the header note on Python set order). -/
def firstDedupGo (seen : Finset String) : List String → List String
  | [] => []
  | w :: ws =>
    if w ∈ seen then firstDedupGo seen ws
    else w :: firstDedupGo (insert w seen) ws

/-- Distinct words of one source, in first-occurrence order. -/
def firstDedup (l : List String) : List String :=
  firstDedupGo ∅ l

/-- `Counter.update` for a single word: bump in place or append with count 1
(Python `Counter` keeps the insertion order of first-seen keys). -/
def counterAdd (c : List (String × Nat)) (w : String) : List (String × Nat) :=
  if (alistFind? c w).isSome then
    c.map (fun pr => if pr.1 = w then (pr.1, pr.2 + 1) else pr)
  else c ++ [(w, 1)]

/-- `word_counts.update(unique_words)`. -/
def counterUpdate (c : List (String × Nat)) (ws : List String) :
    List (String × Nat) :=
  ws.foldl counterAdd c

/-- The `word_counts` Counter accumulated over all sources. -/
def wordCounts (sources : List (Nat × Src)) : List (String × Nat) :=
  sources.foldl (fun c pr => counterUpdate c (firstDedup pr.2.words)) []

/-- `word_counts[word]` (0 when absent, as for a Python `Counter`). -/
def counterGet (c : List (String × Nat)) (w : String) : Nat :=
  (alistFind? c w).getD 0

/-- The `all_words` set accumulated over all sources. -/
def allWordsSet (sources : List (Nat × Src)) : Finset String :=
  sources.foldl (fun s pr => s ∪ (firstDedup pr.2.words).toFinset) ∅

/-- Id assignment: walk `word_counts.items()` in order and give the next id
to each word whose count reaches `minimum_sources_important`. -/
def assignIdsGo (k : Int) (next : Int) : List (String × Nat) → List (String × Int)
  | [] => []
  | (w, c) :: rest =>
    if k ≤ (c : Int) then (w, next) :: assignIdsGo k (next + 1) rest
    else assignIdsGo k next rest

/-- The `word_to_id` dictionary. -/
def wordToId (k : Int) (c : List (String × Nat)) : List (String × Int) :=
  assignIdsGo k 1 c

/-- Kept `(source_id, word)` pairs in emission order of the nested
`for src in sources.values(): for word in set(src.words)` loops. -/
def keptPairs (w2id : List (String × Int)) (sources : List (Nat × Src)) :
    List (Nat × String) :=
  sources.flatMap (fun pr =>
    ((firstDedup pr.2.words).filter
        (fun w => (alistFind? w2id w).isSome)).map
      (fun w => (pr.2.source_id, w)))

/-- Number the kept pairs with consecutive `source_word_id`s and build the
`SourceWord` records. -/
def numberPairs (w2id : List (String × Int)) (wc : List (String × Nat)) :
    Nat → List (Nat × String) → List SourceWord
  | _, [] => []
  | i, (sid, w) :: rest =>
    { source_word_id := i
      source_id := sid
      word_id := (alistFind? w2id w).getD 0
      word := w
      word_no_of_sources := counterGet wc w } :: numberPairs w2id wc (i + 1) rest

/-- The initial (unsorted) `SourceWord` list of `build`. -/
def mkSourceWords (w2id : List (String × Int)) (wc : List (String × Nat))
    (sources : List (Nat × Src)) : List SourceWord :=
  numberPairs w2id wc 1 (keptPairs w2id sources)

/-! ### `build` -/

/-- `build(sources)`.  The input dict is embedded as its insertion-ordered
association list; the algorithm reads only `sources.values()`.  Returns the
final datasets together with the stats dictionary. -/
def build (p : HKTParams) (sources : List (Nat × Src)) : AlgState × Stats :=
  let wc := wordCounts sources
  let number_of_words := (allWordsSet sources).card
  let w2id := wordToId p.minimum_sources_important wc
  let wordDS := w2id.map (fun pr => (pr.2, pr.1))
  let source_words := mkSourceWords w2id wc sources
  let main_word_ds := sortTable source_words
  let st0 : AlgState := { nodeDS := [], hktDS := [], wordDS := wordDS }
  let r := create_hkt p st0 main_word_ds 0
  let st2 :=
    match r.2.2 with
    | none => r.1
    | some hkt =>
      create_branches p (main_word_ds.length + 1) (registerHkt hkt r.1)
        hkt.node_ids main_word_ds
  ( st2,
    { number_loaded := sources.length
      number_accepted_sources := sources.length
      number_of_words := number_of_words
      update_source_word_relation_db := source_words.length
      number_of_hkts := st2.hktDS.length
      number_of_nodes := st2.nodeDS.length } )

/-! ### State invariant -/

/-- Keys of an association list. -/
def alistKeys {κ α : Type} (l : List (κ × α)) : List κ :=
  l.map Prod.fst

/-- The well-formedness invariant maintained by the algorithm on its global
state: `nodeDS` and `HKTDS` are keyed contiguously by `1, …, n` in creation
order, and every registered node has a non-empty `source_ids` set. -/
def StInv (st : AlgState) : Prop :=
  alistKeys st.nodeDS = List.range' 1 st.nodeDS.length ∧
  alistKeys st.hktDS = List.range' 1 st.hktDS.length ∧
  ∀ pr ∈ st.nodeDS, pr.2.source_ids ≠ ∅

/-! ### Concrete inputs for the spec's scenarios -/

/-- A source whose `text` and `category_id` are irrelevant to the core. -/
def mkSrc (sid : Nat) (ws : List String) : Nat × Src :=
  (sid, ⟨sid, "", 0, ws⟩)

/-- Default parameters of the concrete scenarios:
`minimum_threshold = 0, similarity = 0.5, min_important = 1, min_branch = 1`. -/
def scenario_params : HKTParams :=
  ⟨0, mkRat 1 2, 1, 1⟩

/-- Scenario D input: `{1:["a","x"], 2:["a","x"], 3:["a","y"], 4:["a","y"]}`. -/
def scenarioD_sources : List (Nat × Src) :=
  [mkSrc 1 ["a", "x"], mkSrc 2 ["a", "x"], mkSrc 3 ["a", "y"], mkSrc 4 ["a", "y"]]

/-- Scenario C parameters: as `scenario_params` but `minimum_sources_important = 2`. -/
def scenarioC_params : HKTParams :=
  ⟨0, mkRat 1 2, 2, 1⟩

/-- Scenario C input: `{1:["a"], 2:["a"], 3:["z"]}`. -/
def scenarioC_sources : List (Nat × Src) :=
  [mkSrc 1 ["a"], mkSrc 2 ["a"], mkSrc 3 ["z"]]

/-- Parameters with `similarity_threshold = 2.0`, outside the documented
range `[0.0, 1.0]` (other parameters valid). -/
def invalid_params : HKTParams :=
  ⟨0, 2, 1, 1⟩

/-- Input `{1:["a","b"], 2:["a"]}` used to exercise `build` with
`invalid_params`. -/
def invalid_params_sources : List (Nat × Src) :=
  [mkSrc 1 ["a", "b"], mkSrc 2 ["a"]]

/-- `{1:["a"], 2:["b"]}` in insertion order `1, 2`. -/
def permuted_sources_fwd : List (Nat × Src) :=
  [mkSrc 1 ["a"], mkSrc 2 ["b"]]

/-- The same `(source_id, Source)` pairs in insertion order `2, 1`. -/
def permuted_sources_rev : List (Nat × Src) :=
  [mkSrc 2 ["b"], mkSrc 1 ["a"]]

/-- Parameters with a non-trivial expected-words threshold `0.75`. -/
def threshold_params : HKTParams :=
  ⟨mkRat 3 4, mkRat 1 2, 1, 1⟩

/-- Parameters with `similarity_threshold = 0` (boundary behaviour). -/
def simzero_params : HKTParams :=
  ⟨0, 0, 1, 1⟩

/-- A table sorted by `(-word_no_of_sources, word_id)`, used as the C8
witness input: under `threshold_params` the scan stops at the third entry
(ratio `1/2 < 3/4`). -/
def sorted_table_example : List SourceWord :=
  [⟨1, 1, 1, "a", 2⟩, ⟨2, 2, 1, "a", 2⟩, ⟨3, 1, 2, "b", 1⟩]

/-- A refuge node (its `word_ids` contain `-1`) used for C9. -/
def refuge_node_example : Node :=
  ⟨5, 2, {-1}, {7}, []⟩

/-- A non-empty local main table for C9. -/
def refuge_table_example : List SourceWord :=
  [⟨1, 7, 4, "w", 1⟩]

end RiskLive

namespace RiskLive

/-! ## Theorems -/

/-- `natDiv` agrees with rational division (unconditionally: both sides are
`0` when the denominator is `0`, and the algorithm divides only under guards
ensuring a non-zero denominator anyway). -/
theorem natDiv_eq_div (a b : Nat) : natDiv a b = (a : ℚ) / (b : ℚ) := by
  simp [natDiv, Rat.mkRat_eq_div]

/-! ### Association-list lemmas -/

theorem isSome_false_eq_none {α : Type} {o : Option α}
    (h : o.isSome = false) : o = none := by
  cases o
  · rfl
  · simp at h

theorem alistFind?_cons {κ α : Type} [DecidableEq κ]
    (a : κ) (b : α) (t : List (κ × α)) (key : κ) :
    alistFind? ((a, b) :: t) key
      = if a = key then some b else alistFind? t key := rfl

theorem alistFind?_eq_none_iff {κ α : Type} [DecidableEq κ]
    (l : List (κ × α)) (k : κ) :
    alistFind? l k = none ↔ k ∉ alistKeys l := by
  induction l with
  | nil => simp [alistFind?, alistKeys]
  | cons pr rest ih =>
    obtain ⟨k', v⟩ := pr
    rw [alistFind?_cons]
    by_cases h : k' = k
    · subst h
      simp [alistKeys]
    · rw [if_neg h]
      simp [alistKeys, Ne.symm h] at ih ⊢
      exact ih

theorem alistFind?_append_left {κ α : Type} [DecidableEq κ]
    {l : List (κ × α)} (l2 : List (κ × α)) {k : κ}
    (h : alistFind? l k = none) :
    alistFind? (l ++ l2) k = alistFind? l2 k := by
  induction l with
  | nil => rfl
  | cons pr rest ih =>
    obtain ⟨k', v⟩ := pr
    rw [alistFind?_cons] at h
    rw [List.cons_append, alistFind?_cons]
    by_cases hk : k' = k
    · rw [if_pos hk] at h
      exact absurd h (by simp)
    · rw [if_neg hk] at h ⊢
      exact ih h

theorem alistUpdate_cons {κ α : Type} [DecidableEq κ]
    (k : κ) (f : α → α) (a : κ) (b : α) (t : List (κ × α)) :
    alistUpdate k f ((a, b) :: t)
      = (if a = k then (a, f b) else (a, b)) :: alistUpdate k f t := rfl

theorem alistFind?_update_self {κ α : Type} [DecidableEq κ]
    (k : κ) (f : α → α) (l : List (κ × α)) :
    alistFind? (alistUpdate k f l) k = (alistFind? l k).map f := by
  induction l with
  | nil => rfl
  | cons pr rest ih =>
    obtain ⟨k', v⟩ := pr
    by_cases h : k' = k
    · subst h
      simp [alistUpdate_cons, alistFind?_cons]
    · simp [alistUpdate_cons, alistFind?_cons, h, ih]

theorem alistFind?_update_ne {κ α : Type} [DecidableEq κ]
    {k k' : κ} (f : α → α) (l : List (κ × α)) (h : k' ≠ k) :
    alistFind? (alistUpdate k f l) k' = alistFind? l k' := by
  induction l with
  | nil => rfl
  | cons pr rest ih =>
    obtain ⟨k2, v⟩ := pr
    by_cases h2 : k2 = k
    · subst h2
      have h' : ¬ (k2 = k') := fun he => h he.symm
      simp [alistUpdate_cons, alistFind?_cons, h', ih]
    · by_cases h3 : k2 = k'
      · simp [alistUpdate_cons, alistFind?_cons, h2, h3, h]
      · simp [alistUpdate_cons, alistFind?_cons, h2, h3, ih]

theorem alistKeys_update {κ α : Type} [DecidableEq κ]
    (k : κ) (f : α → α) (l : List (κ × α)) :
    alistKeys (alistUpdate k f l) = alistKeys l := by
  simp only [alistKeys, alistUpdate, List.map_map]
  refine List.map_congr_left ?_
  intro pr _
  by_cases h : pr.1 = k
  · rw [Function.comp_apply, if_pos h]
  · rw [Function.comp_apply, if_neg h]

theorem alistUpdate_length {κ α : Type} [DecidableEq κ]
    (k : κ) (f : α → α) (l : List (κ × α)) :
    (alistUpdate k f l).length = l.length := by
  simp [alistUpdate]

theorem alistInsert_fresh {κ α : Type} [DecidableEq κ]
    {l : List (κ × α)} {k : κ} (v : α) (h : alistFind? l k = none) :
    alistInsert k v l = l ++ [(k, v)] := by
  simp [alistInsert, h]

theorem alistReplace_self {κ α : Type} [DecidableEq κ]
    (k : κ) (v : α) (l : List (κ × α)) (h : (alistFind? l k).isSome = true) :
    alistFind? (l.map (fun pr => if pr.1 = k then (k, v) else pr)) k
      = some v := by
  induction l with
  | nil => simp [alistFind?] at h
  | cons pr rest ih =>
    obtain ⟨k', v'⟩ := pr
    have step : (((k', v') :: rest).map
        (fun pr => if pr.1 = k then (k, v) else pr))
      = (if k' = k then (k, v) else (k', v')) ::
          rest.map (fun pr => if pr.1 = k then (k, v) else pr) := rfl
    rw [step]
    by_cases hk : k' = k
    · rw [if_pos hk, alistFind?_cons, if_pos rfl]
    · rw [if_neg hk, alistFind?_cons, if_neg hk]
      rw [alistFind?_cons, if_neg hk] at h
      exact ih h

theorem alistReplace_ne {κ α : Type} [DecidableEq κ]
    {k k' : κ} (v : α) (l : List (κ × α)) (h : k' ≠ k) :
    alistFind? (l.map (fun pr => if pr.1 = k then (k, v) else pr)) k'
      = alistFind? l k' := by
  induction l with
  | nil => rfl
  | cons pr rest ih =>
    obtain ⟨k2, v2⟩ := pr
    have step : (((k2, v2) :: rest).map
        (fun pr => if pr.1 = k then (k, v) else pr))
      = (if k2 = k then (k, v) else (k2, v2)) ::
          rest.map (fun pr => if pr.1 = k then (k, v) else pr) := rfl
    rw [step, alistFind?_cons]
    by_cases h2 : k2 = k
    · rw [if_pos h2, alistFind?_cons]
      have hne : ¬ (k2 = k') := by
        rw [h2]
        exact fun he => h he.symm
      rw [if_neg (fun he => h he.symm), if_neg hne, ih]
    · rw [if_neg h2, alistFind?_cons]
      by_cases h3 : k2 = k'
      · rw [if_pos h3, if_pos h3]
      · rw [if_neg h3, if_neg h3, ih]

theorem alistFind?_insert_self {κ α : Type} [DecidableEq κ]
    (k : κ) (v : α) (l : List (κ × α)) :
    alistFind? (alistInsert k v l) k = some v := by
  unfold alistInsert
  split
  · rename_i hsome
    exact alistReplace_self k v l hsome
  · rename_i hnone
    rw [Bool.not_eq_true] at hnone
    have hnone' := isSome_false_eq_none hnone
    rw [alistFind?_append_left _ hnone', alistFind?_cons, if_pos rfl]

theorem alistFind?_insert_ne {κ α : Type} [DecidableEq κ]
    {k k' : κ} (v : α) (l : List (κ × α)) (h : k' ≠ k) :
    alistFind? (alistInsert k v l) k' = alistFind? l k' := by
  unfold alistInsert
  split
  · exact alistReplace_ne v l h
  · rename_i hnone0
    rw [Bool.not_eq_true] at hnone0
    have hnone := isSome_false_eq_none hnone0
    clear hnone0
    by_cases hmem : alistFind? l k' = none
    · rw [alistFind?_append_left _ hmem, hmem, alistFind?_cons,
        if_neg (fun he => h he.symm)]
      rfl
    · induction l with
      | nil => exact absurd rfl hmem
      | cons pr rest ih =>
        obtain ⟨k2, v2⟩ := pr
        rw [List.cons_append, alistFind?_cons, alistFind?_cons]
        rw [alistFind?_cons] at hmem hnone
        by_cases h3 : k2 = k'
        · rw [if_pos h3, if_pos h3]
        · rw [if_neg h3, if_neg h3]
          rw [if_neg h3] at hmem
          by_cases h4 : k2 = k
          · rw [if_pos h4] at hnone
            exact absurd hnone (by simp)
          · rw [if_neg h4] at hnone
            exact ih hnone hmem

theorem alistKeys_insert_fresh {κ α : Type} [DecidableEq κ]
    {l : List (κ × α)} {k : κ} (v : α) (h : alistFind? l k = none) :
    alistKeys (alistInsert k v l) = alistKeys l ++ [k] := by
  rw [alistInsert_fresh v h]
  simp [alistKeys]

theorem alistInsert_length_fresh {κ α : Type} [DecidableEq κ]
    {l : List (κ × α)} {k : κ} (v : α) (h : alistFind? l k = none) :
    (alistInsert k v l).length = l.length + 1 := by
  rw [alistInsert_fresh v h]
  simp

/-- In a contiguously keyed association list, `length + 1` is fresh. -/
theorem fresh_key_of_range {α : Type} {l : List (Nat × α)}
    (h : alistKeys l = List.range' 1 l.length) :
    alistFind? l (l.length + 1) = none := by
  rw [alistFind?_eq_none_iff, h, List.mem_range'_1]
  omega

/-- Registering at key `length + 1` extends a contiguous key range. -/
theorem alistKeys_insert_range {α : Type} {l : List (Nat × α)} (v : α)
    (h : alistKeys l = List.range' 1 l.length) :
    alistKeys (alistInsert (l.length + 1) v l)
      = List.range' 1 (alistInsert (l.length + 1) v l).length := by
  have hf := fresh_key_of_range h
  rw [alistKeys_insert_fresh v hf, alistInsert_length_fresh v hf, h,
    List.range'_concat]
  simp
  omega

/-! ### Table, node-lookup and union lemmas -/

theorem natDiv_nonneg (a b : Nat) : (0 : ℚ) ≤ natDiv a b := by
  rw [natDiv_eq_div]
  positivity

theorem mem_tableSources {tbl : List SourceWord} {a : Nat} :
    a ∈ tableSources tbl ↔ ∃ sw ∈ tbl, sw.source_id = a := by
  simp [tableSources, List.mem_map]

theorem mem_wordSources {tbl : List SourceWord} {w : Int} {a : Nat} :
    a ∈ wordSources tbl w ↔ ∃ sw ∈ tbl, sw.word_id = w ∧ sw.source_id = a := by
  simp only [wordSources, List.mem_toFinset, List.mem_map, List.mem_filter,
    decide_eq_true_eq]
  constructor
  · rintro ⟨sw, ⟨hm, hw⟩, hs⟩
    exact ⟨sw, hm, hw, hs⟩
  · rintro ⟨sw, hm, hw, hs⟩
    exact ⟨sw, ⟨hm, hw⟩, hs⟩

theorem mem_removeWord {tbl : List SourceWord} {w : Int} {sw : SourceWord} :
    sw ∈ remove_word_from_source_word_ds w tbl ↔ sw ∈ tbl ∧ sw.word_id ≠ w := by
  simp [remove_word_from_source_word_ds, List.mem_filter]

/-- Partition of a table's sources into those of word `w` and those
remaining after removing `w`. -/
theorem tableSources_remove (w : Int) (tbl : List SourceWord) :
    tableSources tbl
      = wordSources tbl w ∪ tableSources (remove_word_from_source_word_ds w tbl) := by
  ext a
  simp only [Finset.mem_union, mem_tableSources, mem_wordSources, mem_removeWord]
  constructor
  · rintro ⟨sw, hm, hs⟩
    by_cases hw : sw.word_id = w
    · exact Or.inl ⟨sw, hm, hw, hs⟩
    · exact Or.inr ⟨sw, ⟨hm, hw⟩, hs⟩
  · rintro (⟨sw, hm, _, hs⟩ | ⟨sw, ⟨hm, _⟩, hs⟩)
    · exact ⟨sw, hm, hs⟩
    · exact ⟨sw, hm, hs⟩

theorem mem_unionOverIds {st : AlgState} {ids : List Nat} {a : Nat} :
    a ∈ unionOverIds st ids ↔ ∃ nid ∈ ids, a ∈ (nodeOf st nid).source_ids := by
  induction ids with
  | nil => simp [unionOverIds]
  | cons nid rest ih =>
    simp only [unionOverIds, List.foldr_cons, Finset.mem_union] at ih ⊢
    rw [ih]
    constructor
    · rintro (h | ⟨nid2, hm, hh⟩)
      · exact ⟨nid, List.mem_cons_self nid rest, h⟩
      · exact ⟨nid2, List.mem_cons_of_mem nid hm, hh⟩
    · rintro ⟨nid2, hm, hh⟩
      rcases List.mem_cons.mp hm with rfl | hm'
      · exact Or.inl hh
      · exact Or.inr ⟨nid2, hm', hh⟩

theorem unionOverIds_append (st : AlgState) (l1 l2 : List Nat) :
    unionOverIds st (l1 ++ l2) = unionOverIds st l1 ∪ unionOverIds st l2 := by
  ext a
  simp only [Finset.mem_union, mem_unionOverIds, List.mem_append]
  constructor
  · rintro ⟨nid, (h | h), hh⟩
    · exact Or.inl ⟨nid, h, hh⟩
    · exact Or.inr ⟨nid, h, hh⟩
  · rintro (⟨nid, h, hh⟩ | ⟨nid, h, hh⟩)
    · exact ⟨nid, Or.inl h, hh⟩
    · exact ⟨nid, Or.inr h, hh⟩

theorem nodeOf_update_self {st : AlgState} {nid : Nat} {f : Node → Node}
    (h : (alistFind? st.nodeDS nid).isSome = true) :
    nodeOf (updateNode nid f st) nid = f (nodeOf st nid) := by
  obtain ⟨n, hn⟩ := Option.isSome_iff_exists.mp h
  unfold nodeOf updateNode
  show (alistFind? (alistUpdate nid f st.nodeDS) nid).getD _ = _
  rw [alistFind?_update_self, hn]
  rfl

theorem nodeOf_update_ne {st : AlgState} {nid nid' : Nat} {f : Node → Node}
    (h : nid' ≠ nid) :
    nodeOf (updateNode nid f st) nid' = nodeOf st nid' := by
  unfold nodeOf updateNode
  show (alistFind? (alistUpdate nid f st.nodeDS) nid').getD _ = _
  rw [alistFind?_update_ne _ _ h]

theorem nodeOf_register_self {st : AlgState} {nid : Nat} {node : Node} :
    nodeOf (registerNode nid node st) nid = node := by
  unfold nodeOf registerNode
  show (alistFind? (alistInsert nid node st.nodeDS) nid).getD _ = _
  rw [alistFind?_insert_self]
  rfl

theorem nodeOf_register_ne {st : AlgState} {nid nid' : Nat} {node : Node}
    (h : nid' ≠ nid) :
    nodeOf (registerNode nid node st) nid' = nodeOf st nid' := by
  unfold nodeOf registerNode
  show (alistFind? (alistInsert nid node st.nodeDS) nid').getD _ = _
  rw [alistFind?_insert_ne _ _ h]

/-- A node with a non-empty source set is genuinely registered. -/
theorem isSome_of_sources_nonempty {st : AlgState} {nid : Nat}
    (h : (nodeOf st nid).source_ids ≠ ∅) :
    (alistFind? st.nodeDS nid).isSome = true := by
  by_contra hc
  rw [Bool.not_eq_true] at hc
  have := isSome_false_eq_none hc
  unfold nodeOf at h
  rw [this] at h
  exact h rfl

/-! ### Lemmas on the expected-words scan -/

/-- Every id produced by the scan is fresh with respect to `seen`, comes
from a table entry, and the produced list has no duplicates. -/
theorem expectedGo_spec (θ : ℚ) (M : Nat) :
    ∀ (l : List SourceWord) (seen : Finset Int),
      (∀ w ∈ expectedGo θ M seen l,
        w ∉ seen ∧ ∃ sw ∈ l, sw.word_id = w) ∧
      (expectedGo θ M seen l).Nodup := by
  intro l
  induction l with
  | nil => intro seen; simp [expectedGo]
  | cons sw rest ih =>
    intro seen
    simp only [expectedGo]
    split
    · simp
    · split
      · rename_i hcond
        constructor
        · intro w hw
          rcases List.mem_cons.mp hw with rfl | hw'
          · exact ⟨hcond.2, sw, List.mem_cons_self sw rest, rfl⟩
          · obtain ⟨hns, sw2, hm, he⟩ := (ih (insert sw.word_id seen)).1 w hw'
            exact ⟨fun hc => hns (Finset.mem_insert_of_mem hc),
              sw2, List.mem_cons_of_mem sw hm, he⟩
        · refine List.nodup_cons.mpr ⟨?_, (ih (insert sw.word_id seen)).2⟩
          intro hc
          exact ((ih (insert sw.word_id seen)).1 _ hc).1 (Finset.mem_insert_self _ _)
      · split
        · simp
        · constructor
          · intro w hw
            obtain ⟨hns, sw2, hm, he⟩ := (ih seen).1 w hw
            exact ⟨hns, sw2, List.mem_cons_of_mem sw hm, he⟩
          · exact (ih seen).2

theorem find_expected_words_general_nodup (p : HKTParams)
    (tbl : List SourceWord) :
    (find_expected_words_general p tbl).Nodup := by
  cases tbl with
  | nil => simp [find_expected_words_general]
  | cons first rest =>
    exact (expectedGo_spec _ _ (first :: rest) ∅).2

theorem find_expected_words_general_mem {p : HKTParams}
    {tbl : List SourceWord} {w : Int}
    (h : w ∈ find_expected_words_general p tbl) :
    ∃ sw ∈ tbl, sw.word_id = w := by
  cases tbl with
  | nil => simp [find_expected_words_general] at h
  | cons first rest =>
    exact ((expectedGo_spec _ _ (first :: rest) ∅).1 w h).2

/-! ### Lemmas on the collision search -/

/-- Every step of the collision-search fold either keeps the accumulator or
replaces it with the current node id. -/
theorem collisionStep_cases (θ : ℚ) (st : AlgState) (S : Finset Nat)
    (acc : Option (Nat × ℚ)) (nid : Nat) :
    collisionStep θ st S acc nid = acc ∨
      collisionStep θ st S acc nid
        = some (nid, natDiv ((nodeOf st nid).source_ids ∩ S).card
            (nodeOf st nid).source_ids.card) := by
  cases acc with
  | none =>
    simp only [collisionStep]
    split
    · exact Or.inl rfl
    · split
      · exact Or.inr rfl
      · exact Or.inl rfl
  | some pr =>
    simp only [collisionStep]
    split
    · exact Or.inl rfl
    · split
      · split
        · exact Or.inr rfl
        · exact Or.inl rfl
      · exact Or.inl rfl

/-- The collision search returns an id from the searched list. -/
theorem bestCollision_mem {θ : ℚ} {st : AlgState} {ids : List Nat}
    {S : Finset Nat} {bid : Nat}
    (h : bestCollision θ st ids S = some bid) : bid ∈ ids := by
  unfold bestCollision at h
  suffices haux : ∀ (l : List Nat) (acc : Option (Nat × ℚ)) (pr : Nat × ℚ),
      l.foldl (collisionStep θ st S) acc = some pr →
      acc = some pr ∨ pr.1 ∈ l by
    obtain ⟨pr, hpr, hfst⟩ := Option.map_eq_some'.mp h
    rcases haux ids none pr hpr with hacc | hmem
    · exact absurd hacc (by simp)
    · rw [← hfst]
      exact hmem
  intro l
  induction l with
  | nil =>
    intro acc pr h
    exact Or.inl h
  | cons nid rest ih =>
    intro acc pr h
    rw [List.foldl_cons] at h
    rcases ih _ pr h with hacc | hmem
    · rcases collisionStep_cases θ st S acc nid with hkeep | hrepl
      · rw [hkeep] at hacc
        exact Or.inl hacc
      · rw [hrepl] at hacc
        have hp := Option.some_inj.mp hacc
        refine Or.inr (List.mem_cons.mpr (Or.inl ?_))
        rw [← hp]
    · exact Or.inr (List.mem_cons_of_mem nid hmem)

/-! ### Preservation of the state invariant -/

theorem alistFind?_update_isSome {κ α : Type} [DecidableEq κ]
    (k k' : κ) (f : α → α) (l : List (κ × α)) :
    (alistFind? (alistUpdate k f l) k').isSome
      = (alistFind? l k').isSome := by
  by_cases h : k' = k
  · subst h
    rw [alistFind?_update_self]
    cases alistFind? l k' <;> rfl
  · rw [alistFind?_update_ne _ _ h]

theorem mem_keys_of_isSome {κ α : Type} [DecidableEq κ]
    {l : List (κ × α)} {k : κ} (h : (alistFind? l k).isSome = true) :
    k ∈ alistKeys l := by
  by_contra hc
  rw [← alistFind?_eq_none_iff] at hc
  rw [hc] at h
  exact absurd h (by simp)

theorem key_le_length_of_isSome {α : Type} {l : List (Nat × α)} {k : Nat}
    (hkeys : alistKeys l = List.range' 1 l.length)
    (h : (alistFind? l k).isSome = true) : k ≤ l.length := by
  have := mem_keys_of_isSome h
  rw [hkeys, List.mem_range'_1] at this
  omega

theorem alistFind?_insert_isSome_of_isSome {α : Type} {l : List (Nat × α)}
    {k' : Nat} (v : α) (h : (alistFind? l k').isSome = true)
    (hk : alistKeys l = List.range' 1 l.length) :
    (alistFind? (alistInsert (l.length + 1) v l) k').isSome = true := by
  have hle := key_le_length_of_isSome hk h
  rw [alistFind?_insert_ne _ _ (by omega)]
  exact h

theorem nodeOf_register_fresh_ne {st : AlgState} {i : Nat} (node : Node)
    (h : (alistFind? st.nodeDS i).isSome = true)
    (hk : alistKeys st.nodeDS = List.range' 1 st.nodeDS.length) :
    nodeOf (registerNode (st.nodeDS.length + 1) node st) i = nodeOf st i := by
  have hle := key_le_length_of_isSome hk h
  exact nodeOf_register_ne (by omega)

theorem nodeOf_isSome_update {st : AlgState} {nid nid' : Nat}
    {f : Node → Node}
    (h : (alistFind? st.nodeDS nid').isSome = true) :
    (alistFind? (updateNode nid f st).nodeDS nid').isSome = true := by
  show (alistFind? (alistUpdate nid f st.nodeDS) nid').isSome = true
  rw [alistFind?_update_isSome]
  exact h

theorem StInv_updateNode {st : AlgState} {nid : Nat} {f : Node → Node}
    (hinv : StInv st)
    (hf : ∀ n : Node, n.source_ids ≠ ∅ → (f n).source_ids ≠ ∅) :
    StInv (updateNode nid f st) := by
  obtain ⟨h1, h2, h3⟩ := hinv
  refine ⟨?_, h2, ?_⟩
  · show alistKeys (alistUpdate nid f st.nodeDS)
      = List.range' 1 (alistUpdate nid f st.nodeDS).length
    rw [alistKeys_update, alistUpdate_length]
    exact h1
  · intro pr hpr
    obtain ⟨pr0, hpr0, hmap⟩ := List.mem_map.mp hpr
    by_cases hk : pr0.1 = nid
    · rw [if_pos hk] at hmap
      rw [← hmap]
      exact hf pr0.2 (h3 pr0 hpr0)
    · rw [if_neg hk] at hmap
      rw [← hmap]
      exact h3 pr0 hpr0

theorem StInv_registerNode {st : AlgState} {node : Node}
    (hinv : StInv st) (hne : node.source_ids ≠ ∅) :
    StInv (registerNode (st.nodeDS.length + 1) node st) := by
  obtain ⟨h1, h2, h3⟩ := hinv
  have hfresh := fresh_key_of_range h1
  refine ⟨?_, h2, ?_⟩
  · exact alistKeys_insert_range node h1
  · intro pr hpr
    have hpr' : pr ∈ st.nodeDS ++ [(st.nodeDS.length + 1, node)] := by
      rw [show (registerNode (st.nodeDS.length + 1) node st).nodeDS
          = alistInsert (st.nodeDS.length + 1) node st.nodeDS from rfl,
        alistInsert_fresh node hfresh] at hpr
      exact hpr
    rcases List.mem_append.mp hpr' with hold | hnew
    · exact h3 pr hold
    · rw [List.mem_singleton.mp hnew]
      exact hne

theorem StInv_registerHkt {st : AlgState} {h : HKT}
    (hinv : StInv st) (hid : h.hkt_id = st.hktDS.length + 1) :
    StInv (registerHkt h st) := by
  obtain ⟨h1, h2, h3⟩ := hinv
  refine ⟨h1, ?_, h3⟩
  show alistKeys (alistInsert h.hkt_id h st.hktDS)
    = List.range' 1 (alistInsert h.hkt_id h st.hktDS).length
  rw [hid]
  exact alistKeys_insert_range h h2

theorem unionOverIds_congr {st1 st2 : AlgState} {ids : List Nat}
    (h : ∀ i ∈ ids, nodeOf st1 i = nodeOf st2 i) :
    unionOverIds st1 ids = unionOverIds st2 ids := by
  ext a
  rw [mem_unionOverIds, mem_unionOverIds]
  constructor
  · rintro ⟨nid, hm, hh⟩
    exact ⟨nid, hm, by rw [← h nid hm]; exact hh⟩
  · rintro ⟨nid, hm, hh⟩
    exact ⟨nid, hm, by rw [h nid hm]; exact hh⟩

theorem unionOverIds_update_absorb {st : AlgState} {ids : List Nat}
    {bid : Nat} {w : Int} {S : Finset Nat}
    (hmem : bid ∈ ids) (hsome : (alistFind? st.nodeDS bid).isSome = true) :
    unionOverIds (updateNode bid (absorbWord w S) st) ids
      = unionOverIds st ids ∪ S := by
  ext a
  rw [Finset.mem_union, mem_unionOverIds, mem_unionOverIds]
  constructor
  · rintro ⟨nid, hm, hh⟩
    by_cases hk : nid = bid
    · subst hk
      rw [nodeOf_update_self hsome] at hh
      simp only [absorbWord] at hh
      rcases Finset.mem_union.mp hh with h1 | h1
      · exact Or.inl ⟨nid, hm, h1⟩
      · exact Or.inr h1
    · rw [nodeOf_update_ne hk] at hh
      exact Or.inl ⟨nid, hm, hh⟩
  · rintro (⟨nid, hm, hh⟩ | hS)
    · by_cases hk : nid = bid
      · subst hk
        refine ⟨nid, hm, ?_⟩
        rw [nodeOf_update_self hsome]
        simp only [absorbWord]
        exact Finset.mem_union_left _ hh
      · exact ⟨nid, hm, by rw [nodeOf_update_ne hk]; exact hh⟩
    · refine ⟨bid, hmem, ?_⟩
      rw [nodeOf_update_self hsome]
      simp only [absorbWord]
      exact Finset.mem_union_right _ hS

theorem unionOverIds_singleton (st : AlgState) (nid : Nat) :
    unionOverIds st [nid] = (nodeOf st nid).source_ids := by
  show (nodeOf st nid).source_ids ∪ ∅ = (nodeOf st nid).source_ids
  exact Finset.union_empty _

/-- Master specification of the fold over expected words: it preserves the
state invariant, leaves `HKTDS`/`wordDS` untouched, keeps every node id of
the growing HKT registered, and maintains the coverage equation
`(union of nodes' sources) ∪ (sources still in the table) = constant`. -/
theorem foldExpected_spec (p : HKTParams) (hid : Nat) :
    ∀ (ws : List Int) (st : AlgState) (tbl : List SourceWord) (ids : List Nat),
      StInv st →
      (∀ nid ∈ ids, (alistFind? st.nodeDS nid).isSome = true) →
      ws.Nodup →
      (∀ w ∈ ws, ∃ sw ∈ tbl, sw.word_id = w) →
      StInv (foldExpected p hid st tbl ids ws).1 ∧
      (foldExpected p hid st tbl ids ws).1.hktDS = st.hktDS ∧
      (foldExpected p hid st tbl ids ws).1.wordDS = st.wordDS ∧
      (∀ nid ∈ (foldExpected p hid st tbl ids ws).2.2,
        (alistFind? (foldExpected p hid st tbl ids ws).1.nodeDS nid).isSome
          = true) ∧
      (unionOverIds (foldExpected p hid st tbl ids ws).1
          (foldExpected p hid st tbl ids ws).2.2
        ∪ tableSources (foldExpected p hid st tbl ids ws).2.1
        = unionOverIds st ids ∪ tableSources tbl) := by
  intro ws
  induction ws with
  | nil =>
    intro st tbl ids hinv hids _ _
    exact ⟨hinv, rfl, rfl, hids, rfl⟩
  | cons w ws ih =>
    intro st tbl ids hinv hids hnd hent
    have hnd' : ws.Nodup := (List.nodup_cons.mp hnd).2
    have hwni : w ∉ ws := (List.nodup_cons.mp hnd).1
    have hent' : ∀ w2 ∈ ws,
        ∃ sw ∈ remove_word_from_source_word_ds w tbl, sw.word_id = w2 := by
      intro w2 hw2
      obtain ⟨sw, hm, he⟩ := hent w2 (List.mem_cons_of_mem w hw2)
      refine ⟨sw, mem_removeWord.mpr ⟨hm, ?_⟩, he⟩
      rw [he]
      intro hc
      rw [hc] at hw2
      exact hwni hw2
    cases hbc : bestCollision p.similarity_threshold st ids
        (wordSources tbl w) with
    | some bid =>
      have hbid := bestCollision_mem hbc
      have hbsome := hids bid hbid
      have hinv' : StInv (updateNode bid
          (absorbWord w (wordSources tbl w)) st) := by
        refine StInv_updateNode hinv ?_
        intro n hn
        simp only [absorbWord]
        intro hc
        rw [Finset.union_eq_empty] at hc
        exact hn hc.1
      have hids' : ∀ nid ∈ ids,
          (alistFind? (updateNode bid
            (absorbWord w (wordSources tbl w)) st).nodeDS nid).isSome
            = true := fun nid hm => nodeOf_isSome_update (hids nid hm)
      obtain ⟨g1, g2, g3, g4, g5⟩ :=
        ih (updateNode bid (absorbWord w (wordSources tbl w)) st)
          (remove_word_from_source_word_ds w tbl) ids hinv' hids' hnd' hent'
      simp only [foldExpected, hbc]
      refine ⟨g1, g2, g3, g4, ?_⟩
      rw [g5, unionOverIds_update_absorb hbid hbsome,
        tableSources_remove w tbl]
      ext a
      simp only [Finset.mem_union]
      tauto
    | none =>
      have hfresh := fresh_key_of_range hinv.1
      have hSne : (create_node (st.nodeDS.length + 1) hid tbl w).source_ids
          ≠ ∅ := by
        obtain ⟨sw, hm, he⟩ := hent w (List.mem_cons_self w ws)
        exact Finset.ne_empty_of_mem
          (mem_wordSources.mpr ⟨sw, hm, he, rfl⟩)
      have hinv' : StInv (registerNode (st.nodeDS.length + 1)
          (create_node (st.nodeDS.length + 1) hid tbl w) st) :=
        StInv_registerNode hinv hSne
      have hne_old : ∀ nid ∈ ids, nid ≠ st.nodeDS.length + 1 := by
        intro nid hm
        have := key_le_length_of_isSome hinv.1 (hids nid hm)
        omega
      have hids' : ∀ nid ∈ ids ++ [st.nodeDS.length + 1],
          (alistFind? (registerNode (st.nodeDS.length + 1)
            (create_node (st.nodeDS.length + 1) hid tbl w) st).nodeDS
            nid).isSome = true := by
        intro nid hm
        rcases List.mem_append.mp hm with hold | hnew
        · show (alistFind? (alistInsert (st.nodeDS.length + 1) _ st.nodeDS)
            nid).isSome = true
          rw [alistFind?_insert_ne _ _ (hne_old nid hold)]
          exact hids nid hold
        · rw [List.mem_singleton.mp hnew]
          show (alistFind? (alistInsert (st.nodeDS.length + 1) _ st.nodeDS)
            (st.nodeDS.length + 1)).isSome = true
          rw [alistFind?_insert_self]
          rfl
      obtain ⟨g1, g2, g3, g4, g5⟩ :=
        ih (registerNode (st.nodeDS.length + 1)
            (create_node (st.nodeDS.length + 1) hid tbl w) st)
          (remove_word_from_source_word_ds w tbl)
          (ids ++ [st.nodeDS.length + 1]) hinv' hids' hnd' hent'
      simp only [foldExpected, hbc]
      refine ⟨g1, g2, g3, g4, ?_⟩
      rw [g5, unionOverIds_append, unionOverIds_singleton,
        nodeOf_register_self]
      have hcongr : unionOverIds (registerNode (st.nodeDS.length + 1)
          (create_node (st.nodeDS.length + 1) hid tbl w) st) ids
          = unionOverIds st ids :=
        unionOverIds_congr
          (fun i hi => nodeOf_register_ne (hne_old i hi))
      rw [hcongr, tableSources_remove w tbl]
      show unionOverIds st ids
          ∪ (create_node (st.nodeDS.length + 1) hid tbl w).source_ids
          ∪ tableSources (remove_word_from_source_word_ds w tbl)
          = unionOverIds st ids ∪ (wordSources tbl w
            ∪ tableSources (remove_word_from_source_word_ds w tbl))
      ext a
      simp only [Finset.mem_union]
      show (a ∈ unionOverIds st ids ∨ a ∈ wordSources tbl w)
          ∨ a ∈ tableSources (remove_word_from_source_word_ds w tbl) ↔ _
      tauto

/-- Master specification of `create_hkt`: it preserves the state invariant,
does not touch `HKTDS`/`wordDS`, allocates `hkt_id = |HKTDS| + 1`, registers
every node of the produced HKT, and the union of the produced HKT's nodes'
`source_ids` equals the set of sources present in the working table when it
was invoked. -/
theorem create_hkt_spec (p : HKTParams) (st : AlgState)
    (tbl : List SourceWord) (pid : Nat) (hinv : StInv st) :
    StInv (create_hkt p st tbl pid).1 ∧
    (create_hkt p st tbl pid).1.hktDS = st.hktDS ∧
    (create_hkt p st tbl pid).1.wordDS = st.wordDS ∧
    ((create_hkt p st tbl pid).2.2 = none → (create_hkt p st tbl pid).1 = st) ∧
    (∀ h, (create_hkt p st tbl pid).2.2 = some h →
      h.hkt_id = st.hktDS.length + 1 ∧
      (∀ nid ∈ h.node_ids,
        (alistFind? (create_hkt p st tbl pid).1.nodeDS nid).isSome = true) ∧
      unionOverIds (create_hkt p st tbl pid).1 h.node_ids
        = tableSources tbl) := by
  cases tbl with
  | nil =>
    exact ⟨hinv, rfl, rfl, fun _ => rfl, fun h hc => by simp [create_hkt] at hc⟩
  | cons first rest =>
    by_cases hexp : find_expected_words_general p (first :: rest) = []
    · have hred : create_hkt p st (first :: rest) pid
          = (st, first :: rest, none) := by
        simp only [create_hkt]
        rw [if_pos hexp]
      rw [hred]
      exact ⟨hinv, rfl, rfl, fun _ => rfl, fun h hc => by simp at hc⟩
    · have hseedne : (create_node (st.nodeDS.length + 1)
          (st.hktDS.length + 1) (first :: rest) first.word_id).source_ids
          ≠ ∅ :=
        Finset.ne_empty_of_mem
          (mem_wordSources.mpr ⟨first, List.mem_cons_self first rest, rfl, rfl⟩)
      have hinv1 : StInv (registerNode (st.nodeDS.length + 1)
          (create_node (st.nodeDS.length + 1) (st.hktDS.length + 1)
            (first :: rest) first.word_id) st) :=
        StInv_registerNode hinv hseedne
      have hids1 : ∀ nid ∈ [st.nodeDS.length + 1],
          (alistFind? (registerNode (st.nodeDS.length + 1)
            (create_node (st.nodeDS.length + 1) (st.hktDS.length + 1)
              (first :: rest) first.word_id) st).nodeDS nid).isSome
            = true := by
        intro nid hm
        rw [List.mem_singleton.mp hm]
        show (alistFind? (alistInsert (st.nodeDS.length + 1) _ st.nodeDS)
          (st.nodeDS.length + 1)).isSome = true
        rw [alistFind?_insert_self]
        rfl
      have hnd1 : ((find_expected_words_general p
          (first :: rest)).erase first.word_id).Nodup :=
        (find_expected_words_general_nodup p (first :: rest)).erase _
      have hent1 : ∀ w2 ∈ (find_expected_words_general p
            (first :: rest)).erase first.word_id,
          ∃ sw ∈ remove_word_from_source_word_ds first.word_id (first :: rest),
            sw.word_id = w2 := by
        intro w2 hw2
        have hm := ((find_expected_words_general_nodup p
          (first :: rest)).mem_erase_iff).mp hw2
        obtain ⟨sw, hsw, he⟩ := find_expected_words_general_mem hm.2
        refine ⟨sw, mem_removeWord.mpr ⟨hsw, ?_⟩, he⟩
        rw [he]
        exact hm.1
      obtain ⟨g1, g2, g3, g4, g5⟩ :=
        foldExpected_spec p (st.hktDS.length + 1)
          ((find_expected_words_general p (first :: rest)).erase
            first.word_id)
          (registerNode (st.nodeDS.length + 1)
            (create_node (st.nodeDS.length + 1) (st.hktDS.length + 1)
              (first :: rest) first.word_id) st)
          (remove_word_from_source_word_ds first.word_id (first :: rest))
          [st.nodeDS.length + 1] hinv1 hids1 hnd1 hent1
      have hcov : unionOverIds
            (foldExpected p (st.hktDS.length + 1)
              (registerNode (st.nodeDS.length + 1)
                (create_node (st.nodeDS.length + 1) (st.hktDS.length + 1)
                  (first :: rest) first.word_id) st)
              (remove_word_from_source_word_ds first.word_id (first :: rest))
              [st.nodeDS.length + 1]
              ((find_expected_words_general p (first :: rest)).erase
                first.word_id)).1
            (foldExpected p (st.hktDS.length + 1)
              (registerNode (st.nodeDS.length + 1)
                (create_node (st.nodeDS.length + 1) (st.hktDS.length + 1)
                  (first :: rest) first.word_id) st)
              (remove_word_from_source_word_ds first.word_id (first :: rest))
              [st.nodeDS.length + 1]
              ((find_expected_words_general p (first :: rest)).erase
                first.word_id)).2.2
          ∪ tableSources
            (foldExpected p (st.hktDS.length + 1)
              (registerNode (st.nodeDS.length + 1)
                (create_node (st.nodeDS.length + 1) (st.hktDS.length + 1)
                  (first :: rest) first.word_id) st)
              (remove_word_from_source_word_ds first.word_id (first :: rest))
              [st.nodeDS.length + 1]
              ((find_expected_words_general p (first :: rest)).erase
                first.word_id)).2.1
          = tableSources (first :: rest) := by
        rw [g5, unionOverIds_singleton, nodeOf_register_self]
        exact (tableSources_remove first.word_id (first :: rest)).symm
      simp only [create_hkt]
      rw [if_neg hexp]
      split
      · rename_i href
        refine ⟨g1, g2, g3, fun hc => by simp at hc, ?_⟩
        intro h hc
        have hh := Option.some_inj.mp hc
        rw [← hh]
        refine ⟨rfl, g4, ?_⟩
        have hsub := Finset.sdiff_eq_empty_iff_subset.mp href
        rw [← hcov]
        exact (Finset.union_eq_left.mpr hsub).symm
      · rename_i href
        have hrefne : (tableSources
            (foldExpected p (st.hktDS.length + 1)
              (registerNode (st.nodeDS.length + 1)
                (create_node (st.nodeDS.length + 1) (st.hktDS.length + 1)
                  (first :: rest) first.word_id) st)
              (remove_word_from_source_word_ds first.word_id (first :: rest))
              [st.nodeDS.length + 1]
              ((find_expected_words_general p (first :: rest)).erase
                first.word_id)).2.1
            \ unionOverIds
              (foldExpected p (st.hktDS.length + 1)
                (registerNode (st.nodeDS.length + 1)
                  (create_node (st.nodeDS.length + 1) (st.hktDS.length + 1)
                    (first :: rest) first.word_id) st)
                (remove_word_from_source_word_ds first.word_id
                  (first :: rest))
                [st.nodeDS.length + 1]
                ((find_expected_words_general p (first :: rest)).erase
                  first.word_id)).1
              (foldExpected p (st.hktDS.length + 1)
                (registerNode (st.nodeDS.length + 1)
                  (create_node (st.nodeDS.length + 1) (st.hktDS.length + 1)
                    (first :: rest) first.word_id) st)
                (remove_word_from_source_word_ds first.word_id
                  (first :: rest))
                [st.nodeDS.length + 1]
                ((find_expected_words_general p (first :: rest)).erase
                  first.word_id)).2.2) ≠ ∅ := href
        refine ⟨StInv_registerNode g1 hrefne, g2, g3,
          fun hc => by simp at hc, ?_⟩
        intro h hc
        have hh := Option.some_inj.mp hc
        rw [← hh]
        refine ⟨rfl, ?_, ?_⟩
        · intro nid hm
          rcases List.mem_append.mp hm with hold | hnew
          · exact alistFind?_insert_isSome_of_isSome _ (g4 nid hold) g1.1
          · rw [List.mem_singleton.mp hnew]
            show (alistFind? (alistInsert _ _ _) _).isSome = true
            rw [alistFind?_insert_self]
            rfl
        · rw [unionOverIds_append, unionOverIds_singleton,
            nodeOf_register_self]
          rw [unionOverIds_congr
            (fun i hi => nodeOf_register_fresh_ne _ (g4 i hi) g1.1)]
          show _ ∪ (create_node_for_refuge_sources _ _ _).source_ids = _
          rw [show ∀ (a : Nat) (b : Nat) (s : Finset Nat),
            (create_node_for_refuge_sources a b s).source_ids = s
            from fun a b s => rfl]
          rw [Finset.union_sdiff_self_eq_union]
          exact hcov

/-- `add_node_top_words` never touches `source_ids`. -/
theorem add_node_top_words_source_ids (n : Node) (main : List SourceWord) :
    (add_node_top_words n main).source_ids = n.source_ids := by
  unfold add_node_top_words
  split
  · rfl
  · rfl

/-- The part of the branch step below the computation of the local main
table preserves the state invariant, provided the recursive call does. -/
theorem branch_core_inv (p : HKTParams)
    (child : AlgState → List Nat → List SourceWord → AlgState)
    (hchild : ∀ st ids main, StInv st → StInv (child st ids main))
    (st : AlgState) (nid : Nat) (mainLocal : List SourceWord)
    (hinv : StInv st) :
    StInv (if mainLocal = [] then st
      else
        match (create_hkt p
            (updateNode nid (fun n => add_node_top_words n mainLocal) st)
            mainLocal nid).2.2 with
        | none => (create_hkt p
            (updateNode nid (fun n => add_node_top_words n mainLocal) st)
            mainLocal nid).1
        | some h =>
          if (create_hkt p
              (updateNode nid (fun n => add_node_top_words n mainLocal) st)
              mainLocal nid).2.1 = [] then
            registerHkt h (create_hkt p
              (updateNode nid (fun n => add_node_top_words n mainLocal) st)
              mainLocal nid).1
          else child (registerHkt h (create_hkt p
              (updateNode nid (fun n => add_node_top_words n mainLocal) st)
              mainLocal nid).1) h.node_ids mainLocal) := by
  have hinv1 : StInv (updateNode nid
      (fun n => add_node_top_words n mainLocal) st) := by
    refine StInv_updateNode hinv ?_
    intro n hn
    rw [add_node_top_words_source_ids]
    exact hn
  obtain ⟨s1, s2, s3, s4, s5⟩ := create_hkt_spec p
    (updateNode nid (fun n => add_node_top_words n mainLocal) st)
    mainLocal nid hinv1
  split
  · exact hinv
  · split
    · exact s1
    · rename_i h heq
      have hreg : StInv (registerHkt h (create_hkt p
          (updateNode nid (fun n => add_node_top_words n mainLocal) st)
          mainLocal nid).1) := by
        refine StInv_registerHkt s1 ?_
        rw [s2]
        exact (s5 h heq).1
      split
      · exact hreg
      · exact hchild _ _ _ hreg

/-- The per-node branch step preserves the state invariant, provided the
recursive call does. -/
theorem branchNodeStep_inv (p : HKTParams)
    (child : AlgState → List Nat → List SourceWord → AlgState)
    (hchild : ∀ st ids main, StInv st → StInv (child st ids main))
    (st : AlgState) (nid : Nat) (main : List SourceWord)
    (hinv : StInv st) : StInv (branchNodeStep p child st nid main) := by
  simp only [branchNodeStep]
  split
  · split
    all_goals exact branch_core_inv p child hchild st nid _ hinv
  · exact hinv

/-- The node loop of `create_branches` preserves the state invariant. -/
theorem branchesGo_inv (p : HKTParams)
    (child : AlgState → List Nat → List SourceWord → AlgState)
    (hchild : ∀ st ids main, StInv st → StInv (child st ids main)) :
    ∀ (ids : List Nat) (st : AlgState) (main : List SourceWord),
      StInv st → StInv (branchesGo p child st ids main) := by
  intro ids
  induction ids with
  | nil => intro st main hinv; exact hinv
  | cons nid rest ih =>
    intro st main hinv
    exact ih _ main (branchNodeStep_inv p child hchild st nid main hinv)

/-- `create_branches` preserves the state invariant for any fuel. -/
theorem create_branches_inv (p : HKTParams) :
    ∀ (fuel : Nat) (st : AlgState) (ids : List Nat) (main : List SourceWord),
      StInv st → StInv (create_branches p fuel st ids main) := by
  intro fuel
  induction fuel with
  | zero => intro st ids main hinv; exact hinv
  | succ fuel ih =>
    intro st ids main hinv
    exact branchesGo_inv p (create_branches p fuel)
      (fun st2 ids2 main2 h2 => ih st2 ids2 main2 h2) ids st main hinv

/-- The final state of `build` satisfies the state invariant. -/
theorem build_StInv (p : HKTParams) (sources : List (Nat × Src)) :
    StInv (build p sources).1 := by
  have h0 : StInv (⟨[], [], (wordToId p.minimum_sources_important
      (wordCounts sources)).map (fun pr => (pr.2, pr.1))⟩ : AlgState) :=
    ⟨rfl, rfl, fun pr hpr => absurd hpr (List.not_mem_nil pr)⟩
  obtain ⟨s1, s2, s3, s4, s5⟩ := create_hkt_spec p _
    (sortTable (mkSourceWords
      (wordToId p.minimum_sources_important (wordCounts sources))
      (wordCounts sources) sources)) 0 h0
  simp only [build]
  split
  · exact s1
  · rename_i hkt heq
    refine create_branches_inv p _ _ _ _ ?_
    refine StInv_registerHkt s1 ?_
    rw [s2]
    exact (s5 hkt heq).1

/-- C6: after `build` returns, the keys of `HKTDS` are exactly `1, …, n` in
creation order and the keys of `nodeDS` are exactly `1, …, m` in creation
order: ids are unique, contiguous from 1, and (since an association list
keeps insertion order) assigned in strictly increasing order of creation. -/
theorem build_ids_contiguous (p : HKTParams) (sources : List (Nat × Src)) :
    alistKeys (build p sources).1.nodeDS
      = List.range' 1 (build p sources).1.nodeDS.length ∧
    alistKeys (build p sources).1.hktDS
      = List.range' 1 (build p sources).1.hktDS.length :=
  ⟨(build_StInv p sources).1, (build_StInv p sources).2.1⟩

/-- C10: every node registered in `nodeDS` when `build` returns, regular or
refuge, has a non-empty `source_ids` set. -/
theorem build_nodes_nonempty_sources (p : HKTParams)
    (sources : List (Nat × Src)) :
    ∀ pr ∈ (build p sources).1.nodeDS, pr.2.source_ids ≠ ∅ :=
  (build_StInv p sources).2.2

/-- Witness for `build_nodes_nonempty_sources`: the single node produced on
scenario C's input has the non-empty source set `{1, 2}`. -/
theorem build_nodes_nonempty_sources_witness :
    ((1, (⟨1, 1, {1}, {1, 2}, []⟩ : Node)) : Nat × Node).2.source_ids ≠ ∅ :=
  build_nodes_nonempty_sources scenarioC_params scenarioC_sources
    (1, ⟨1, 1, {1}, {1, 2}, []⟩) (by decide)

/-- C4: for every HKT produced by `create_hkt` (hence every HKT `build`
returns, each of which is produced by exactly one `create_hkt` invocation),
the union of the `source_ids` of all of its nodes — regular and refuge —
equals the set of sources that had at least one entry in the working table
at the moment `create_hkt` was invoked; no such source is dropped. -/
theorem create_hkt_covers_table_sources (p : HKTParams) (st : AlgState)
    (tbl : List SourceWord) (pid : Nat) (h : HKT) (hinv : StInv st)
    (hres : (create_hkt p st tbl pid).2.2 = some h) :
    unionOverIds (create_hkt p st tbl pid).1 h.node_ids
      = tableSources tbl :=
  ((create_hkt_spec p st tbl pid hinv).2.2.2.2 h hres).2.2

/-- Witness for `create_hkt_covers_table_sources` on a concrete table. -/
theorem create_hkt_covers_table_sources_witness :
    unionOverIds
        (create_hkt threshold_params ⟨[], [], []⟩ sorted_table_example 0).1
        (⟨1, [1], [], 0⟩ : HKT).node_ids
      = tableSources sorted_table_example := by
  refine create_hkt_covers_table_sources threshold_params ⟨[], [], []⟩
    sorted_table_example 0 ⟨1, [1], [], 0⟩
    ⟨rfl, rfl, fun pr hpr => absurd hpr (List.not_mem_nil pr)⟩ ?_
  decide

/-- With similarity threshold `0`, searching a single node with non-empty
sources always collides with it (every score is non-negative). -/
theorem bestCollision_single_zero (st : AlgState) (nid : Nat) (S : Finset Nat)
    (h : (nodeOf st nid).source_ids ≠ ∅) :
    bestCollision 0 st [nid] S = some nid := by
  unfold bestCollision
  rw [List.foldl_cons, List.foldl_nil]
  simp only [collisionStep]
  rw [if_neg h, if_pos (natDiv_nonneg _ _)]
  rfl

/-- With similarity threshold `0` the fold over the expected words never
creates a node: every word collides with the single existing (seed) node and
is absorbed into its `word_ids`. -/
theorem foldExpected_simzero (p : HKTParams)
    (hθ : p.similarity_threshold = 0) (hid : Nat) :
    ∀ (ws : List Int) (st : AlgState) (tbl : List SourceWord) (nid : Nat),
      (nodeOf st nid).source_ids ≠ ∅ →
      (foldExpected p hid st tbl [nid] ws).2.2 = [nid] ∧
      (foldExpected p hid st tbl [nid] ws).1.nodeDS.length
        = st.nodeDS.length ∧
      (foldExpected p hid st tbl [nid] ws).1.hktDS = st.hktDS ∧
      (nodeOf (foldExpected p hid st tbl [nid] ws).1 nid).word_ids
        = (nodeOf st nid).word_ids ∪ ws.toFinset := by
  intro ws
  induction ws with
  | nil =>
    intro st tbl nid h
    refine ⟨rfl, rfl, rfl, ?_⟩
    simp [foldExpected]
  | cons w ws ih =>
    intro st tbl nid h
    have hbest : bestCollision p.similarity_threshold st [nid]
        (wordSources tbl w) = some nid := by
      rw [hθ]
      exact bestCollision_single_zero st nid _ h
    have hsome := isSome_of_sources_nonempty h
    have hnode : nodeOf (updateNode nid (absorbWord w (wordSources tbl w)) st)
          nid
        = absorbWord w (wordSources tbl w) (nodeOf st nid) :=
      nodeOf_update_self hsome
    have h' : (nodeOf (updateNode nid (absorbWord w (wordSources tbl w)) st)
        nid).source_ids ≠ ∅ := by
      rw [hnode]
      simp only [absorbWord]
      intro hc
      rw [Finset.union_eq_empty] at hc
      exact h hc.1
    obtain ⟨h1, h2, h3, h4⟩ :=
      ih (updateNode nid (absorbWord w (wordSources tbl w)) st)
        (remove_word_from_source_word_ds w tbl) nid h'
    simp only [foldExpected, hbest]
    refine ⟨h1, ?_, h3, ?_⟩
    · rw [h2]
      show (alistUpdate nid _ st.nodeDS).length = st.nodeDS.length
      exact alistUpdate_length _ _ _
    · rw [h4, hnode]
      simp only [absorbWord]
      ext a
      simp [List.toFinset_cons]

/-- Ratios with a common denominator are monotone in the numerator. -/
theorem natDiv_le_natDiv (M : Nat) {a b : Nat} (h : a ≤ b) :
    natDiv a M ≤ natDiv b M := by
  rcases Nat.eq_zero_or_pos M with hM | hM
  · simp [natDiv, hM]
  · rw [natDiv_eq_div, natDiv_eq_div]
    have hM' : (0 : ℚ) < (M : ℚ) := by exact_mod_cast hM
    exact (div_le_div_iff_of_pos_right hM').mpr (by exact_mod_cast h)

/-- The full scan appends nothing once every remaining ratio is below the
threshold. -/
theorem expectedFullGo_nil (θ : ℚ) (M : Nat) :
    ∀ (l : List SourceWord) (seen : Finset Int),
      (∀ sw ∈ l, natDiv sw.word_no_of_sources M < θ) →
      expectedFullGo θ M seen l = [] := by
  intro l
  induction l with
  | nil => intro seen _; rfl
  | cons sw rest ih =>
    intro seen h
    have hsw := h sw (List.mem_cons_self sw rest)
    simp only [expectedFullGo]
    split
    · rfl
    · rw [if_neg, ih _ (fun b hb => h b (List.mem_cons_of_mem sw hb))]
      intro hc
      exact absurd hsw (not_lt.mpr hc.1)

/-- Core of C8: on a table whose `word_no_of_sources` are non-increasing,
the early-exit scan and the full scan agree. -/
theorem expectedGo_eq_fullGo (θ : ℚ) (M : Nat) :
    ∀ (l : List SourceWord) (seen : Finset Int),
      List.Pairwise
        (fun a b => b.word_no_of_sources ≤ a.word_no_of_sources) l →
      expectedGo θ M seen l = expectedFullGo θ M seen l := by
  intro l
  induction l with
  | nil => intro seen _; rfl
  | cons sw rest ih =>
    intro seen hp
    rw [List.pairwise_cons] at hp
    simp only [expectedGo, expectedFullGo]
    split
    · rfl
    · by_cases h1 : θ ≤ natDiv sw.word_no_of_sources M ∧ sw.word_id ∉ seen
      · rw [if_pos h1, if_pos h1, ih _ hp.2]
      · rw [if_neg h1, if_neg h1]
        by_cases h2 : natDiv sw.word_no_of_sources M < θ
        · rw [if_pos h2, expectedFullGo_nil θ M rest seen]
          intro b hb
          exact lt_of_le_of_lt (natDiv_le_natDiv M (hp.1 b hb)) h2
        · rw [if_neg h2, ih _ hp.2]

/-! ### The vocabulary stage under input reordering -/

theorem alistFind?_append_some {κ α : Type} [DecidableEq κ]
    {l : List (κ × α)} (l2 : List (κ × α)) {k : κ} {v : α}
    (h : alistFind? l k = some v) :
    alistFind? (l ++ l2) k = some v := by
  induction l with
  | nil => simp [alistFind?] at h
  | cons pr rest ih =>
    obtain ⟨k', v'⟩ := pr
    rw [alistFind?_cons] at h
    rw [List.cons_append, alistFind?_cons]
    by_cases hk : k' = k
    · rw [if_pos hk] at h ⊢
      exact h
    · rw [if_neg hk] at h ⊢
      exact ih h

theorem alistFind?_some_mem {κ α : Type} [DecidableEq κ]
    {l : List (κ × α)} {k : κ} {v : α} (h : alistFind? l k = some v) :
    (k, v) ∈ l := by
  induction l with
  | nil => simp [alistFind?] at h
  | cons pr rest ih =>
    obtain ⟨k', v'⟩ := pr
    rw [alistFind?_cons] at h
    by_cases hk : k' = k
    · rw [if_pos hk] at h
      rw [← hk, Option.some_inj.mp h]
      exact List.mem_cons_self _ _
    · rw [if_neg hk] at h
      exact List.mem_cons_of_mem _ (ih h)

theorem mem_firstDedupGo (l : List String) :
    ∀ (seen : Finset String) (a : String),
      a ∈ firstDedupGo seen l ↔ a ∈ l ∧ a ∉ seen := by
  induction l with
  | nil => intro seen a; simp [firstDedupGo]
  | cons w ws ih =>
    intro seen a
    simp only [firstDedupGo]
    split
    · rename_i hw
      rw [ih]
      simp only [List.mem_cons]
      constructor
      · rintro ⟨hm, hns⟩
        exact ⟨Or.inr hm, hns⟩
      · rintro ⟨hm | hm, hns⟩
        · rw [hm] at hns
          exact absurd hw hns
        · exact ⟨hm, hns⟩
    · rename_i hw
      simp only [List.mem_cons, ih]
      constructor
      · rintro (rfl | ⟨hm, hns⟩)
        · exact ⟨Or.inl rfl, hw⟩
        · exact ⟨Or.inr hm, fun hc => hns (Finset.mem_insert_of_mem hc)⟩
      · rintro ⟨rfl | hm, hns⟩
        · exact Or.inl rfl
        · by_cases haw : a = w
          · exact Or.inl haw
          · exact Or.inr ⟨hm, fun hc =>
              hns ((Finset.mem_insert.mp hc).resolve_left haw)⟩

theorem firstDedupGo_nodup (l : List String) :
    ∀ seen : Finset String, (firstDedupGo seen l).Nodup := by
  induction l with
  | nil => intro seen; simp [firstDedupGo]
  | cons w ws ih =>
    intro seen
    simp only [firstDedupGo]
    split
    · exact ih seen
    · refine List.nodup_cons.mpr ⟨?_, ih _⟩
      intro hc
      exact ((mem_firstDedupGo ws _ w).mp hc).2 (Finset.mem_insert_self _ _)

theorem mem_firstDedup {l : List String} {a : String} :
    a ∈ firstDedup l ↔ a ∈ l := by
  rw [firstDedup, mem_firstDedupGo]
  simp

theorem firstDedup_nodup (l : List String) : (firstDedup l).Nodup :=
  firstDedupGo_nodup l ∅

theorem counterGet_bumpMap (x w : String) :
    ∀ c : List (String × Nat),
      counterGet (c.map (fun pr =>
        if pr.1 = x then (pr.1, pr.2 + 1) else pr)) w
      = counterGet c w
        + (if w = x ∧ (alistFind? c w).isSome = true then 1 else 0) := by
  intro c
  induction c with
  | nil => simp [counterGet, alistFind?]
  | cons pr rest ih =>
    obtain ⟨k, v⟩ := pr
    have hstep : (((k, v) :: rest).map (fun pr =>
        if pr.1 = x then (pr.1, pr.2 + 1) else pr))
        = (if k = x then (k, v + 1) else (k, v))
          :: rest.map (fun pr => if pr.1 = x then (pr.1, pr.2 + 1) else pr) :=
      rfl
    rw [hstep]
    by_cases hwk : k = w
    · subst hwk
      by_cases hkx : k = x
      · rw [if_pos hkx]
        simp [counterGet, alistFind?_cons, hkx]
      · rw [if_neg hkx]
        have hcond : ¬ (k = x ∧ (alistFind? ((k, v) :: rest) k).isSome = true) :=
          fun hc => hkx hc.1
        unfold counterGet
        rw [if_neg hcond, alistFind?_cons, if_pos rfl, alistFind?_cons, if_pos rfl]
        rfl
    · have hfind : ∀ z : Nat, alistFind? ((k, z) :: rest.map (fun pr =>
          if pr.1 = x then (pr.1, pr.2 + 1) else pr)) w
          = alistFind? (rest.map (fun pr =>
            if pr.1 = x then (pr.1, pr.2 + 1) else pr)) w := by
        intro z
        rw [alistFind?_cons, if_neg hwk]
      by_cases hkx : k = x
      · rw [if_pos hkx]
        unfold counterGet
        rw [hfind, alistFind?_cons, if_neg hwk]
        exact ih
      · rw [if_neg hkx]
        unfold counterGet
        rw [hfind, alistFind?_cons, if_neg hwk]
        exact ih

theorem counterGet_add (c : List (String × Nat)) (x w : String) :
    counterGet (counterAdd c x) w
      = counterGet c w + (if w = x then 1 else 0) := by
  unfold counterAdd
  split
  · rename_i hsome
    rw [counterGet_bumpMap]
    by_cases hwx : w = x
    · subst hwx
      rw [if_pos ⟨rfl, hsome⟩, if_pos rfl]
    · rw [if_neg (fun hc => hwx hc.1), if_neg hwx]
  · rename_i hnone
    rw [Bool.not_eq_true] at hnone
    have hn := isSome_false_eq_none hnone
    by_cases hwx : w = x
    · subst hwx
      unfold counterGet
      rw [alistFind?_append_left _ hn, hn, alistFind?_cons, if_pos rfl]
      simp
    · unfold counterGet
      cases hf : alistFind? c w with
      | none =>
        rw [alistFind?_append_left _ hf, alistFind?_cons,
          if_neg (fun hc => hwx hc.symm)]
        simp [alistFind?, hwx]
      | some v =>
        rw [alistFind?_append_some _ hf]
        simp [hwx]

theorem counterGet_counterUpdate :
    ∀ (ws : List String) (c : List (String × Nat)) (w : String), ws.Nodup →
      counterGet (counterUpdate c ws)
        w = counterGet c w + (if w ∈ ws then 1 else 0) := by
  intro ws
  induction ws with
  | nil => intro c w _; simp [counterUpdate]
  | cons x ws' ih =>
    intro c w hnd
    have hstep : counterUpdate c (x :: ws')
        = counterUpdate (counterAdd c x) ws' := rfl
    rw [hstep, ih _ w (List.nodup_cons.mp hnd).2, counterGet_add]
    by_cases hwx : w = x
    · subst hwx
      have hnm : w ∉ ws' := (List.nodup_cons.mp hnd).1
      simp [hnm]
    · simp [hwx, List.mem_cons]

theorem counterGet_wordCounts_aux :
    ∀ (l : List (Nat × Src)) (c : List (String × Nat)) (w : String),
      counterGet (l.foldl
        (fun c pr => counterUpdate c (firstDedup pr.2.words)) c) w
      = counterGet c w
        + l.countP (fun pr => decide (w ∈ firstDedup pr.2.words)) := by
  intro l
  induction l with
  | nil => intro c w; simp [counterGet]
  | cons pr l' ih =>
    intro c w
    rw [List.foldl_cons, ih, counterGet_counterUpdate _ _ _
      (firstDedup_nodup pr.2.words), List.countP_cons]
    by_cases hm : w ∈ firstDedup pr.2.words
    · simp [hm]
      omega
    · simp [hm]

theorem counterGet_wordCounts (l : List (Nat × Src)) (w : String) :
    counterGet (wordCounts l) w
      = l.countP (fun pr => decide (w ∈ firstDedup pr.2.words)) := by
  rw [wordCounts, counterGet_wordCounts_aux]
  simp [counterGet, alistFind?]

/-- C1 counterexample: on scenario D's input with the stated parameters the
overlap of `x` (and of `y`) with the seed node is `2/4 = 0.5`, which *meets*
the similarity threshold `0.5`, so both words fold into the seed node.  The
forest therefore consists of a single HKT whose single node has
`word_ids = {a, x, y}` — not `{a}` — and no child HKT is ever produced. -/
theorem build_scenarioD_folds_counterexample :
    ((build scenario_params scenarioD_sources).1.hktDS.map Prod.fst = [1]) ∧
    ((build scenario_params scenarioD_sources).1.nodeDS.map Prod.fst = [1]) ∧
    (nodeOf (build scenario_params scenarioD_sources).1 1).word_ids
      = ({1, 2, 3} : Finset Int) := by
  decide

/-- C1 (amended): on scenario D's input, words `x` and `y` overlap the seed
node for `a` at ratio exactly `2/4 = 0.5 ≥ similarity_threshold` and are
folded into it; `build` returns a single root HKT with a single node with
`word_ids = {a, x, y} = {1, 2, 3}` and `source_ids = {1, 2, 3, 4}`, no
refuge node, and no child HKT. -/
theorem build_scenarioD_single_node :
    ((build scenario_params scenarioD_sources).1.wordDS
      = [(1, "a"), (2, "x"), (3, "y")]) ∧
    ((build scenario_params scenarioD_sources).1.hktDS
      = [(1, ⟨1, [1], [2, 3], 0⟩)]) ∧
    ((build scenario_params scenarioD_sources).1.nodeDS.map Prod.fst = [1]) ∧
    (nodeOf (build scenario_params scenarioD_sources).1 1).word_ids
      = ({1, 2, 3} : Finset Int) ∧
    (nodeOf (build scenario_params scenarioD_sources).1 1).source_ids
      = ({1, 2, 3, 4} : Finset Nat) := by
  decide

/-- C2 counterexample: on scenario C's input, word `z` is dropped by the
importance filter, so source 3 never has an entry in the working table; the
refuge set is computed from the working table and is therefore empty.  The
root HKT consists of the single seed node (its `word_ids = {a}` do not
contain `-1`) — no refuge node for source 3 is created. -/
theorem build_scenarioC_no_refuge_counterexample :
    ((build scenarioC_params scenarioC_sources).1.nodeDS.map Prod.fst = [1]) ∧
    ((-1 : Int) ∉ (nodeOf (build scenarioC_params scenarioC_sources).1 1).word_ids) ∧
    (nodeOf (build scenarioC_params scenarioC_sources).1 1).source_ids
      = ({1, 2} : Finset Nat) := by
  decide

/-- C2 (amended): on scenario C's input, `z` is dropped from the vocabulary
and source 3 has no entry in the working table; since refuge sources are
collected from the working table, *no* refuge node is created.  `build`
returns a single HKT with the single node `{a} → {1, 2}`, and source 3
appears in no node at all. -/
theorem build_scenarioC_result :
    ((build scenarioC_params scenarioC_sources).1.wordDS = [(1, "a")]) ∧
    ((build scenarioC_params scenarioC_sources).1.hktDS
      = [(1, ⟨1, [1], [], 0⟩)]) ∧
    ((build scenarioC_params scenarioC_sources).1.nodeDS.map Prod.fst = [1]) ∧
    (nodeOf (build scenarioC_params scenarioC_sources).1 1).word_ids
      = ({1} : Finset Int) ∧
    (nodeOf (build scenarioC_params scenarioC_sources).1 1).source_ids
      = ({1, 2} : Finset Nat) := by
  decide

/-- C3 counterexample: two inputs holding the same `(source_id, Source)`
pairs but iterated in different orders.  Word ids are assigned in iteration
order of the counting structure, so the returned word dictionaries differ
(`{1 ↦ "a", 2 ↦ "b"}` versus `{1 ↦ "b", 2 ↦ "a"}`): the outputs are *not*
identical. -/
theorem build_key_order_changes_wordDS :
    permuted_sources_fwd.Perm permuted_sources_rev ∧
    (build scenario_params permuted_sources_fwd).1.wordDS
      ≠ (build scenario_params permuted_sources_rev).1.wordDS := by
  decide

/-- C5 counterexample: `similarity_threshold = 2.0` lies outside the
documented range `[0.0, 1.0]`, yet `build` performs no parameter validation:
it neither raises nor returns empty indices — it runs the normal algorithm
and returns a populated forest (three nodes, two HKTs). -/
theorem build_invalid_similarity_no_error :
    (¬ (invalid_params.similarity_threshold ≤ 1)) ∧
    (build invalid_params invalid_params_sources).1.nodeDS.map Prod.fst
      = [1, 2, 3] := by
  decide

/-- C5 (amended): the code contains no parameter validation: with a
parameter outside its documented range (here `similarity_threshold = 2.0`)
`build` runs the ordinary algorithm to completion and returns a fully
populated result, exactly as for valid parameters; no `InvalidParameter`
error exists in the implementation. -/
theorem build_invalid_similarity_runs_normally :
    ((build invalid_params invalid_params_sources).1.hktDS.map Prod.fst
      = [1, 2]) ∧
    ((build invalid_params invalid_params_sources).1.nodeDS.map Prod.fst
      = [1, 2, 3]) ∧
    ((build invalid_params invalid_params_sources).2
      = ⟨2, 2, 2, 3, 2, 3⟩) := by
  decide

/-- C9 counterexample: for a refuge node (`-1 ∈ word_ids`) the whole body of
`add_node_top_words` is skipped — the guard `if -1 not in node.word_ids`
wraps *both* loops — so even with a non-empty local main table nothing is
appended to the refuge node's `top_words`. -/
theorem add_node_top_words_refuge_counterexample :
    ((-1 : Int) ∈ refuge_node_example.word_ids) ∧
    refuge_table_example ≠ [] ∧
    (add_node_top_words refuge_node_example refuge_table_example).top_words
      = [] := by
  decide

/-- C9 (amended): for a refuge node, `add_node_top_words` is a complete
no-op: neither the node's own `word_ids` nor any word id from the local main
table is appended to `top_words`. -/
theorem add_node_top_words_refuge_noop (node : Node) (main : List SourceWord)
    (h : (-1 : Int) ∈ node.word_ids) :
    add_node_top_words node main = node := by
  simp [add_node_top_words, h]

/-- Witness for `add_node_top_words_refuge_noop` at a concrete refuge node
and non-empty table. -/
theorem add_node_top_words_refuge_noop_witness :
    add_node_top_words refuge_node_example refuge_table_example
      = refuge_node_example :=
  add_node_top_words_refuge_noop refuge_node_example refuge_table_example
    (by decide)

/-- C7: with `similarity_threshold = 0`, every expected word processed in
the fold step of `create_hkt` collides with and is absorbed into the first
existing node (the seed node); no new node is created after the seed until
the refuge step.  Concretely: the produced HKT's node list is the seed node
alone, or the seed node followed by one refuge node (`word_ids = {-1}`), and
every remaining expected word ends up in the seed node's `word_ids`. -/
theorem create_hkt_simzero_single_regular_node
    (p : HKTParams) (st st' : AlgState) (tbl tbl' : List SourceWord)
    (pid : Nat) (h : HKT)
    (hθ : p.similarity_threshold = 0) (hinv : StInv st)
    (hres : create_hkt p st tbl pid = (st', tbl', some h)) :
    (h.node_ids = [st.nodeDS.length + 1] ∨
      (h.node_ids = [st.nodeDS.length + 1, st.nodeDS.length + 2] ∧
        (nodeOf st' (st.nodeDS.length + 2)).word_ids = {-1})) ∧
    ∀ w ∈ h.expected_words,
      w ∈ (nodeOf st' (st.nodeDS.length + 1)).word_ids := by
  cases tbl with
  | nil => simp [create_hkt] at hres
  | cons first rest =>
    simp only [create_hkt] at hres
    by_cases hexp : find_expected_words_general p (first :: rest) = []
    · rw [if_pos hexp] at hres
      simp at hres
    · rw [if_neg hexp] at hres
      have hfresh : alistFind? st.nodeDS (st.nodeDS.length + 1) = none :=
        fresh_key_of_range hinv.1
      have hseed : nodeOf
          (registerNode (st.nodeDS.length + 1)
            (create_node (st.nodeDS.length + 1) (st.hktDS.length + 1)
              (first :: rest) first.word_id) st)
          (st.nodeDS.length + 1)
          = create_node (st.nodeDS.length + 1) (st.hktDS.length + 1)
              (first :: rest) first.word_id := nodeOf_register_self
      have hseedne : (nodeOf
          (registerNode (st.nodeDS.length + 1)
            (create_node (st.nodeDS.length + 1) (st.hktDS.length + 1)
              (first :: rest) first.word_id) st)
          (st.nodeDS.length + 1)).source_ids ≠ ∅ := by
        rw [hseed]
        exact Finset.ne_empty_of_mem
          (mem_wordSources.mpr ⟨first, List.mem_cons_self first rest, rfl, rfl⟩)
      obtain ⟨hids, hlen, hhkt, hwids⟩ :=
        foldExpected_simzero p hθ (st.hktDS.length + 1)
          ((find_expected_words_general p (first :: rest)).erase first.word_id)
          (registerNode (st.nodeDS.length + 1)
            (create_node (st.nodeDS.length + 1) (st.hktDS.length + 1)
              (first :: rest) first.word_id) st)
          (remove_word_from_source_word_ds first.word_id (first :: rest))
          (st.nodeDS.length + 1) hseedne
      have hlen1 : (registerNode (st.nodeDS.length + 1)
          (create_node (st.nodeDS.length + 1) (st.hktDS.length + 1)
            (first :: rest) first.word_id) st).nodeDS.length
          = st.nodeDS.length + 1 := alistInsert_length_fresh _ hfresh
      rw [hids] at hres
      split at hres
      · rw [Prod.mk.injEq, Prod.mk.injEq] at hres
        obtain ⟨hst, _, hsome⟩ := hres
        have hh := Option.some_inj.mp hsome
        rw [← hh, ← hst]
        refine ⟨Or.inl rfl, ?_⟩
        intro w hw
        rw [hwids, hseed]
        refine Finset.mem_union_right _ (List.mem_toFinset.mpr hw)
      · rw [Prod.mk.injEq, Prod.mk.injEq] at hres
        obtain ⟨hst, _, hsome⟩ := hres
        have hh := Option.some_inj.mp hsome
        have hridlen : (foldExpected p (st.hktDS.length + 1)
            (registerNode (st.nodeDS.length + 1)
              (create_node (st.nodeDS.length + 1) (st.hktDS.length + 1)
                (first :: rest) first.word_id) st)
            (remove_word_from_source_word_ds first.word_id (first :: rest))
            [st.nodeDS.length + 1]
            ((find_expected_words_general p (first :: rest)).erase
              first.word_id)).1.nodeDS.length = st.nodeDS.length + 1 := by
          rw [hlen, hlen1]
        rw [← hh, ← hst]
        constructor
        · refine Or.inr ⟨?_, ?_⟩
          · rw [hridlen]
            rfl
          · rw [hridlen,
              show st.nodeDS.length + 1 + 1 = st.nodeDS.length + 2 from rfl,
              nodeOf_register_self]
            rfl
        · intro w hw
          rw [hridlen]
          rw [nodeOf_register_ne (by omega)]
          rw [hwids, hseed]
          exact Finset.mem_union_right _ (List.mem_toFinset.mpr hw)

/-- Witness for `create_hkt_simzero_single_regular_node`: with
`similarity_threshold = 0` on a concrete three-entry table, the produced HKT
has the seed node alone and word `2` is absorbed into it. -/
theorem create_hkt_simzero_single_regular_node_witness :
    ((⟨1, [1], [2], 0⟩ : HKT).node_ids = [1] ∨
      ((⟨1, [1], [2], 0⟩ : HKT).node_ids = [1, 2] ∧
        (nodeOf
          (create_hkt simzero_params ⟨[], [], []⟩ sorted_table_example 0).1
          2).word_ids = {-1})) ∧
    ∀ w ∈ (⟨1, [1], [2], 0⟩ : HKT).expected_words,
      w ∈ (nodeOf
        (create_hkt simzero_params ⟨[], [], []⟩ sorted_table_example 0).1
        1).word_ids := by
  have h3 : (create_hkt simzero_params ⟨[], [], []⟩ sorted_table_example 0).2.2
      = some ⟨1, [1], [2], 0⟩ := by decide
  refine create_hkt_simzero_single_regular_node simzero_params ⟨[], [], []⟩
    ((create_hkt simzero_params ⟨[], [], []⟩ sorted_table_example 0).1)
    sorted_table_example
    ((create_hkt simzero_params ⟨[], [], []⟩ sorted_table_example 0).2.1)
    0 ⟨1, [1], [2], 0⟩ rfl
    ⟨rfl, rfl, fun pr hpr => absurd hpr (List.not_mem_nil pr)⟩ ?_
  rw [← h3]

/-- C8: given a working table sorted by `(-word_no_of_sources, word_id)`
ascending, the expected-words scan with the early exit on the first entry
whose ratio falls below the threshold returns the same list of word ids as
the full scan of the table without the early exit. -/
theorem find_expected_words_early_exit_eq_full_scan (p : HKTParams)
    (tbl : List SourceWord)
    (h : List.Pairwise (fun a b => tableKeyLE a b = true) tbl) :
    find_expected_words_general p tbl = find_expected_words_full_scan p tbl := by
  cases tbl with
  | nil => rfl
  | cons first rest =>
    refine expectedGo_eq_fullGo _ _ _ _ (h.imp ?_)
    intro a b hab
    simp only [tableKeyLE, Bool.or_eq_true, Bool.and_eq_true, decide_eq_true_eq]
      at hab
    rcases hab with hlt | ⟨heq, _⟩
    · exact le_of_lt hlt
    · exact le_of_eq heq.symm

/-- Witness for `find_expected_words_early_exit_eq_full_scan` on a concrete
sorted table where the early exit actually fires. -/
theorem find_expected_words_early_exit_eq_full_scan_witness :
    (List.Pairwise (fun a b => tableKeyLE a b = true) sorted_table_example) ∧
    find_expected_words_general threshold_params sorted_table_example
      = find_expected_words_full_scan threshold_params sorted_table_example :=
  ⟨by decide,
    find_expected_words_early_exit_eq_full_scan threshold_params
      sorted_table_example (by decide)⟩

theorem alistKeys_cons {κ α : Type} (k : κ) (v : α) (l : List (κ × α)) :
    alistKeys ((k, v) :: l) = k :: alistKeys l := rfl

theorem alistKeys_counterAdd_isSome {c : List (String × Nat)} {x : String}
    (h : (alistFind? c x).isSome = true) :
    alistKeys (counterAdd c x) = alistKeys c := by
  unfold counterAdd
  rw [if_pos h]
  unfold alistKeys
  rw [List.map_map]
  refine List.map_congr_left ?_
  intro pr _
  by_cases hp : pr.1 = x <;> simp [hp]

theorem alistKeys_counterAdd_none {c : List (String × Nat)} {x : String}
    (h : alistFind? c x = none) :
    alistKeys (counterAdd c x) = alistKeys c ++ [x] := by
  unfold counterAdd
  rw [if_neg (by rw [h]; simp)]
  unfold alistKeys
  rw [List.map_append]
  rfl

theorem counterAdd_keys_nodup {c : List (String × Nat)} (x : String)
    (h : (alistKeys c).Nodup) : (alistKeys (counterAdd c x)).Nodup := by
  cases hf : alistFind? c x with
  | none =>
    rw [alistKeys_counterAdd_none hf]
    refine List.nodup_append.mpr ⟨h, List.nodup_singleton x, ?_⟩
    intro a ha hb
    rw [List.mem_singleton] at hb
    subst hb
    exact (alistFind?_eq_none_iff c a).mp hf ha
  | some v =>
    rw [alistKeys_counterAdd_isSome (by rw [hf]; rfl)]
    exact h

theorem counterAdd_vals_pos {c : List (String × Nat)} {x : String}
    (h : ∀ pr ∈ c, 1 ≤ pr.2) : ∀ pr ∈ counterAdd c x, 1 ≤ pr.2 := by
  intro pr hpr
  unfold counterAdd at hpr
  split at hpr
  · rw [List.mem_map] at hpr
    obtain ⟨q, hq, hqe⟩ := hpr
    by_cases hqx : q.1 = x
    · rw [if_pos hqx] at hqe
      rw [← hqe]
      exact Nat.le_add_left 1 q.2
    · rw [if_neg hqx] at hqe
      rw [← hqe]
      exact h q hq
  · rcases List.mem_append.mp hpr with hm | hm
    · exact h pr hm
    · rw [List.mem_singleton] at hm
      rw [hm]

theorem counterUpdate_keys_nodup :
    ∀ (ws : List String) (c : List (String × Nat)), (alistKeys c).Nodup →
      (alistKeys (counterUpdate c ws)).Nodup := by
  intro ws
  induction ws with
  | nil => intro c h; exact h
  | cons x ws' ih =>
    intro c h
    exact ih (counterAdd c x) (counterAdd_keys_nodup x h)

theorem counterUpdate_vals_pos :
    ∀ (ws : List String) (c : List (String × Nat)),
      (∀ pr ∈ c, 1 ≤ pr.2) → ∀ pr ∈ counterUpdate c ws, 1 ≤ pr.2 := by
  intro ws
  induction ws with
  | nil => intro c h; exact h
  | cons x ws' ih =>
    intro c h
    exact ih (counterAdd c x) (counterAdd_vals_pos h)

theorem wordCounts_keys_nodup (l : List (Nat × Src)) :
    (alistKeys (wordCounts l)).Nodup := by
  have main : ∀ (l : List (Nat × Src)) (c : List (String × Nat)),
      (alistKeys c).Nodup →
      (alistKeys (l.foldl
        (fun c pr => counterUpdate c (firstDedup pr.2.words)) c)).Nodup := by
    intro l
    induction l with
    | nil => intro c h; exact h
    | cons pr l' ih =>
      intro c h
      exact ih _ (counterUpdate_keys_nodup _ _ h)
  exact main l [] (by simp [alistKeys])

theorem wordCounts_vals_pos (l : List (Nat × Src)) :
    ∀ pr ∈ wordCounts l, 1 ≤ pr.2 := by
  have main : ∀ (l : List (Nat × Src)) (c : List (String × Nat)),
      (∀ pr ∈ c, 1 ≤ pr.2) →
      ∀ pr ∈ l.foldl
        (fun c pr => counterUpdate c (firstDedup pr.2.words)) c, 1 ≤ pr.2 := by
    intro l
    induction l with
    | nil => intro c h; exact h
    | cons pr l' ih =>
      intro c h
      exact ih _ (counterUpdate_vals_pos _ _ h)
  exact main l [] (by simp)

theorem assignIdsGo_keys_subset (k : Int) :
    ∀ (c : List (String × Nat)) (next : Int) (w : String),
      w ∈ alistKeys (assignIdsGo k next c) → w ∈ alistKeys c := by
  intro c
  induction c with
  | nil => intro next w h; exact absurd h (by simp [assignIdsGo, alistKeys])
  | cons pr rest ih =>
    obtain ⟨w0, c0⟩ := pr
    intro next w h
    simp only [assignIdsGo] at h
    rw [alistKeys_cons]
    by_cases hk : k ≤ (c0 : Int)
    · rw [if_pos hk, alistKeys_cons] at h
      rcases List.mem_cons.mp h with h1 | h1
      · exact List.mem_cons.mpr (Or.inl h1)
      · exact List.mem_cons.mpr (Or.inr (ih _ _ h1))
    · rw [if_neg hk] at h
      exact List.mem_cons.mpr (Or.inr (ih _ _ h))

theorem assignIdsGo_isSome (k : Int) (w : String) :
    ∀ c : List (String × Nat), (alistKeys c).Nodup → ∀ next : Int,
      ((alistFind? (assignIdsGo k next c) w).isSome = true
        ↔ ∃ cnt, alistFind? c w = some cnt ∧ k ≤ (cnt : Int)) := by
  intro c
  induction c with
  | nil =>
    intro _ next
    simp [assignIdsGo, alistFind?]
  | cons pr rest ih =>
    obtain ⟨w0, c0⟩ := pr
    intro hnd next
    rw [alistKeys_cons] at hnd
    have hnd' := List.nodup_cons.mp hnd
    simp only [assignIdsGo]
    by_cases hk : k ≤ (c0 : Int)
    · rw [if_pos hk]
      by_cases hww : w0 = w
      · subst hww
        rw [alistFind?_cons, if_pos rfl]
        constructor
        · intro _
          refine ⟨c0, ?_, hk⟩
          rw [alistFind?_cons, if_pos rfl]
        · intro _
          rfl
      · rw [alistFind?_cons, if_neg hww, alistFind?_cons, if_neg hww]
        exact ih hnd'.2 (next + 1)
    · rw [if_neg hk]
      by_cases hww : w0 = w
      · subst hww
        constructor
        · intro hs
          exact absurd
            (assignIdsGo_keys_subset k rest next w0 (mem_keys_of_isSome hs))
            hnd'.1
        · rintro ⟨cnt, hc, hkc⟩
          rw [alistFind?_cons, if_pos rfl] at hc
          rw [← Option.some_inj.mp hc] at hkc
          exact absurd hkc hk
      · rw [alistFind?_cons, if_neg hww]
        exact ih hnd'.2 next

theorem alistFind?_wordCounts (l : List (Nat × Src)) (w : String) :
    alistFind? (wordCounts l) w
      = if 0 < l.countP (fun pr => decide (w ∈ firstDedup pr.2.words))
        then some (l.countP (fun pr => decide (w ∈ firstDedup pr.2.words)))
        else none := by
  cases hf : alistFind? (wordCounts l) w with
  | none =>
    have h0 : counterGet (wordCounts l) w = 0 := by
      unfold counterGet
      rw [hf]
      rfl
    rw [counterGet_wordCounts] at h0
    rw [h0]
    simp
  | some v =>
    have hv : 1 ≤ v := wordCounts_vals_pos l (w, v) (alistFind?_some_mem hf)
    have hget : counterGet (wordCounts l) w = v := by
      unfold counterGet
      rw [hf]
      rfl
    rw [counterGet_wordCounts] at hget
    rw [hget, if_pos (Nat.lt_of_lt_of_le Nat.zero_lt_one hv)]

theorem wordToId_isSome_perm (k : Int) {l1 l2 : List (Nat × Src)}
    (h : l1.Perm l2) (w : String) :
    (alistFind? (wordToId k (wordCounts l1)) w).isSome
      = (alistFind? (wordToId k (wordCounts l2)) w).isSome := by
  have hcf : alistFind? (wordCounts l1) w = alistFind? (wordCounts l2) w := by
    rw [alistFind?_wordCounts, alistFind?_wordCounts,
      h.countP_eq (fun pr => decide (w ∈ firstDedup pr.2.words))]
  have h1 := assignIdsGo_isSome k w (wordCounts l1) (wordCounts_keys_nodup l1) 1
  have h2 := assignIdsGo_isSome k w (wordCounts l2) (wordCounts_keys_nodup l2) 1
  show (alistFind? (assignIdsGo k 1 (wordCounts l1)) w).isSome
    = (alistFind? (assignIdsGo k 1 (wordCounts l2)) w).isSome
  cases hb1 : (alistFind? (assignIdsGo k 1 (wordCounts l1)) w).isSome with
  | false =>
    cases hb2 : (alistFind? (assignIdsGo k 1 (wordCounts l2)) w).isSome with
    | false => rfl
    | true =>
      exfalso
      have hx := h1.mpr (hcf ▸ h2.mp hb2)
      rw [hb1] at hx
      exact Bool.false_ne_true hx
  | true =>
    cases hb2 : (alistFind? (assignIdsGo k 1 (wordCounts l2)) w).isSome with
    | false =>
      exfalso
      have hx := h2.mpr (hcf ▸ h1.mp hb1)
      rw [hb2] at hx
      exact Bool.false_ne_true hx
    | true => rfl

theorem numberPairs_length (w2id : List (String × Int))
    (wc : List (String × Nat)) :
    ∀ (i : Nat) (l : List (Nat × String)),
      (numberPairs w2id wc i l).length = l.length := by
  intro i l
  induction l generalizing i with
  | nil => rfl
  | cons pr rest ih =>
    obtain ⟨sid, w⟩ := pr
    simp only [numberPairs, List.length_cons]
    rw [ih]

theorem mkSourceWords_length (w2id : List (String × Int))
    (wc : List (String × Nat)) (sources : List (Nat × Src)) :
    (mkSourceWords w2id wc sources).length
      = (sources.map (fun pr =>
          ((firstDedup pr.2.words).filter
            (fun w => (alistFind? w2id w).isSome)).length)).sum := by
  rw [mkSourceWords, numberPairs_length, keptPairs, List.length_flatMap]
  refine congrArg List.sum (List.map_congr_left ?_)
  intro pr _
  simp [Function.comp, List.length_map]

theorem allWordsFold_perm {l1 l2 : List (Nat × Src)} (h : l1.Perm l2) :
    ∀ s : Finset String,
      l1.foldl (fun s pr => s ∪ (firstDedup pr.2.words).toFinset) s
        = l2.foldl (fun s pr => s ∪ (firstDedup pr.2.words).toFinset) s := by
  induction h with
  | nil => intro s; rfl
  | cons x h ih => intro s; exact ih _
  | swap x y l =>
    intro s
    simp only [List.foldl_cons]
    rw [Finset.union_right_comm]
  | trans h1 h2 ih1 ih2 => intro s; exact (ih1 s).trans (ih2 s)

theorem allWordsSet_perm {l1 l2 : List (Nat × Src)} (h : l1.Perm l2) :
    allWordsSet l1 = allWordsSet l2 :=
  allWordsFold_perm h ∅

/-- C3 (amended): the word dictionary itself is order-dependent, but the
scalar outputs that do not mention ids are not: for two runs of `build` on
inputs holding the same `(source_id, Source)` pairs in different key
iteration orders, the stats fields `number_loaded`,
`number_accepted_sources`, `number_of_words` and
`update_source_word_relation_db` coincide. -/
theorem build_stats_order_independent (p : HKTParams)
    (l1 l2 : List (Nat × Src)) (h : l1.Perm l2) :
    (build p l1).2.number_loaded = (build p l2).2.number_loaded ∧
    (build p l1).2.number_accepted_sources
      = (build p l2).2.number_accepted_sources ∧
    (build p l1).2.number_of_words = (build p l2).2.number_of_words ∧
    (build p l1).2.update_source_word_relation_db
      = (build p l2).2.update_source_word_relation_db := by
  have hlen : l1.length = l2.length := h.length_eq
  refine ⟨hlen, hlen, ?_, ?_⟩
  · show (allWordsSet l1).card = (allWordsSet l2).card
    rw [allWordsSet_perm h]
  · show (mkSourceWords (wordToId p.minimum_sources_important (wordCounts l1))
        (wordCounts l1) l1).length
      = (mkSourceWords (wordToId p.minimum_sources_important (wordCounts l2))
        (wordCounts l2) l2).length
    rw [mkSourceWords_length, mkSourceWords_length]
    have hp : (fun w => (alistFind?
          (wordToId p.minimum_sources_important (wordCounts l1)) w).isSome)
        = (fun w => (alistFind?
          (wordToId p.minimum_sources_important (wordCounts l2)) w).isSome) :=
      funext (wordToId_isSome_perm p.minimum_sources_important h)
    rw [hp]
    exact (h.map _).sum_eq

/-- Witness for `build_stats_order_independent` on the two-source input taken
in both key orders. -/
theorem build_stats_order_independent_witness :
    permuted_sources_fwd.Perm permuted_sources_rev ∧
    ((build scenario_params permuted_sources_fwd).2.number_loaded
        = (build scenario_params permuted_sources_rev).2.number_loaded ∧
      (build scenario_params permuted_sources_fwd).2.number_accepted_sources
        = (build scenario_params permuted_sources_rev).2.number_accepted_sources ∧
      (build scenario_params permuted_sources_fwd).2.number_of_words
        = (build scenario_params permuted_sources_rev).2.number_of_words ∧
      (build scenario_params permuted_sources_fwd).2.update_source_word_relation_db
        = (build scenario_params permuted_sources_rev).2.update_source_word_relation_db) :=
  ⟨List.Perm.swap (mkSrc 2 ["b"]) (mkSrc 1 ["a"]) [],
    build_stats_order_independent scenario_params permuted_sources_fwd
      permuted_sources_rev (List.Perm.swap (mkSrc 2 ["b"]) (mkSrc 1 ["a"]) [])⟩

end RiskLive
